import Mathlib

/-!
Shallow embedding of the alignment engine of the `english1999` repository
(`scripts/align_whisper.py` and `scripts/llm_align.py`), together with
theorems settling the specification claims about it.

Modelling conventions:
* Python floats (all timestamps and scores) are modelled as exact rationals `ℚ`.
* Python lists are Lean `List`s; in-place mutation is modelled by returning the
  updated list.
* External collaborators (Whisper transcription, ffmpeg, the Anthropic API)
  are out of scope; where a function consumes their output, that output is a
  plain argument of the Lean function.
-/

namespace AlignWhisper

/-- `Word` from `align_whisper.py`: one Whisper token with normalized text,
raw text and start/end timestamps in seconds.  (`end` is a Lean keyword, the
field is named `stop`.) -/
structure Word where
  text : String
  raw : String
  start : ℚ
  stop : ℚ
deriving Repr, DecidableEq

/-- `AlignedSegment` from `align_whisper.py`. -/
structure AlignedSegment where
  text : String
  speaker : String
  translation : String
  start : ℚ
  stop : ℚ
  matched : Bool
  score : ℚ
  word_start_idx : Int := -1
  word_end_idx : Int := -1
deriving Repr, DecidableEq

/-- One input dialogue segment (an entry of the input JSON `segments` list):
`seg["text"]`, `seg.get("speaker", "")`, `seg.get("translation", "")`,
`float(seg.get("startTime", 0.0))`, `float(seg.get("endTime", 0.0))`. -/
structure DialogueSeg where
  text : String
  speaker : String := ""
  translation : String := ""
  startTime : ℚ := 0
  endTime : ℚ := 0
deriving Repr, DecidableEq

/-- `normalize_word`: lowercase, keep only `[a-z0-9']`, strip leading and
trailing apostrophes. -/
def normalize_word (w : String) : String :=
  let lowered := w.toLower
  let kept := lowered.toList.filter fun c =>
    ('a' ≤ c ∧ c ≤ 'z') ∨ ('0' ≤ c ∧ c ≤ '9') ∨ c = '\''
  let stripped := ((kept.dropWhile (· = '\'')).reverse.dropWhile (· = '\'')).reverse
  String.mk stripped

/-- The "smart punctuation" characters that `normalize_text` replaces by a
space: em dash, en dash, ellipsis, curly double quotes, curly single quotes
and the straight double quote (the Python regex character class). -/
def smartChars : List Char := ['—', '–', '…', '“', '”', '‘', '’', '"']

/-- `normalize_text`: replace smart punctuation by spaces, split on
whitespace, normalize each word, drop empty results. -/
def normalize_text (text : String) : List String :=
  let replaced := text.map fun c => if c ∈ smartChars then ' ' else c
  let words := replaced.split (·.isWhitespace)
  (words.map normalize_word).filter (· ≠ "")

/-- Inner loop of one Levenshtein DP row update.  `levLoop x ys row n0`
consumes `ys` together with the previous row (whose head corresponds to the
diagonal cell) and the cell just computed to its left (`n0`). -/
def levLoop (x : Char) : List Char → List ℕ → ℕ → List ℕ
  | y :: ys, rPrev :: rCur :: rest, nPrev =>
    let nCur := min (rCur + 1) (min (nPrev + 1) (rPrev + (if x = y then 0 else 1)))
    nCur :: levLoop x ys (rCur :: rest) nCur
  | _, _, _ => []

/-- One Levenshtein DP row update: from the row for a prefix of the first
word, compute the row after consuming one more character `x`. -/
def levRow (x : Char) (ys : List Char) (row : List ℕ) : List ℕ :=
  let n0 := row.headD 0 + 1
  n0 :: levLoop x ys row n0

/-- Levenshtein edit distance (unit costs), by the standard row DP.  This is
the distance underlying `rapidfuzz.distance.Levenshtein`. -/
def levenshtein (a b : String) : ℕ :=
  let ys := b.toList
  let final := a.toList.foldl (fun row x => levRow x ys row) (List.range (ys.length + 1))
  final.getLastD 0

/-- `Levenshtein.normalized_similarity` of rapidfuzz:
`1 - distance / max(len a, len b)`, and `1` when both strings are empty. -/
def normalized_similarity (a b : String) : ℚ :=
  let m := max a.length b.length
  if m = 0 then 1 else 1 - (levenshtein a b : ℚ) / (m : ℚ)

/-- One reference word `r` scans the hypothesis words left to right and claims
the first not-yet-used one whose similarity is ≥ 0.8 (the body of the inner
`for j, h in enumerate(hyp)` loop of `word_match_score`).  Returns the updated
`used` list, or `none` if no hypothesis word can be claimed. -/
def claimFirst (r : String) : List String → List Bool → Option (List Bool)
  | h :: hs, u :: us =>
    if u = false ∧ (4 / 5 : ℚ) ≤ normalized_similarity r h then
      some (true :: us)
    else
      match claimFirst r hs us with
      | some us' => some (u :: us')
      | none => none
  | _, _ => none

/-- One step of the greedy claiming fold of `word_match_score`. -/
def claimStep (hyp : List String) (acc : ℕ × List Bool) (r : String) : ℕ × List Bool :=
  match claimFirst r hyp acc.2 with
  | some us => (acc.1 + 1, us)
  | none => acc

/-- The greedy claiming loop of `word_match_score`: fold over the reference
words, threading the `used` flags and counting successful claims. -/
def greedyClaims (ref hyp : List String) : ℕ × List Bool :=
  ref.foldl (claimStep hyp) (0, List.replicate hyp.length false)

/-- `word_match_score`: word-level F1 between reference and hypothesis word
lists, with fuzzy per-word matching (Levenshtein similarity ≥ 0.8).  (Inside
the non-empty branch Python guards the divisions with `if hyp else 0.0` /
`if ref else 0.0`; both lists are non-empty there, so the guards are inert.) -/
def word_match_score (ref hyp : List String) : ℚ :=
  if ref = [] ∨ hyp = [] then 0
  else
    let nMatches := (greedyClaims ref hyp).1
    let precision : ℚ := (nMatches : ℚ) / (hyp.length : ℚ)
    let recall' : ℚ := (nMatches : ℚ) / (ref.length : ℚ)
    if precision + recall' = 0 then 0
    else 2 * precision * recall' / (precision + recall')

/-- Module-level constant `SEARCH_WINDOW = 3000`. -/
def SEARCH_WINDOW : ℕ := 3000

/-- Module-level constant `MATCH_THRESHOLD = 0.35`. -/
def MATCH_THRESHOLD : ℚ := 35 / 100

/-- Total indexing `words[i]` (every use in the source is guarded so that
`i` is in range). -/
def wordAt (words : List Word) (i : ℕ) : Word :=
  words.getD i ⟨"", "", 0, 0⟩

/-- Candidate loop of `_best_match_in_range`: scan the start positions `js`
in order; `break` as soon as `j + n > len(words)`; keep the strictly best
score (ties keep the earliest position). -/
def bmirGo (ref_words : List String) (words : List Word) : List ℕ → ℚ × ℕ → ℚ × ℕ
  | [], acc => acc
  | j :: js, acc =>
    if words.length < j + ref_words.length then acc
    else
      let hyp := ((words.drop j).take ref_words.length).map (·.text)
      let score := word_match_score ref_words hyp
      bmirGo ref_words words js (if acc.1 < score then (score, j) else acc)

/-- `_best_match_in_range(ref_words, words, start, end)`: best (score, start
position) over `j ∈ range(start, max(start+1, end - n + 1))`, starting from
`(0.0, start)`.  (`end` is a reserved word; the parameter is named `stop`.) -/
def best_match_in_range (ref_words : List String) (words : List Word) (start stop : ℕ) :
    ℚ × ℕ :=
  let n := ref_words.length
  let upper := max (start + 1) (stop + 1 - n)
  bmirGo ref_words words (List.range' start (upper - start)) (0, start)

/-- Body of one pass-1 iteration of `align`: given the cursor and one dialogue
segment, produce the `AlignedSegment` appended to `results` and the new
cursor. -/
def p1both (words : List Word) (cursor : ℕ) (seg : DialogueSeg) : AlignedSegment × ℕ :=
  let ref_words := normalize_text seg.text
  let n := ref_words.length
  if n = 0 then
    ({ text := seg.text, speaker := seg.speaker, translation := seg.translation,
       start := seg.startTime, stop := seg.endTime, matched := false, score := 0 }, cursor)
  else
    let search_end := min (cursor + SEARCH_WINDOW) words.length
    let b := best_match_in_range ref_words words cursor search_end
    if MATCH_THRESHOLD ≤ b.1 then
      let best_end := b.2 + n - 1
      ({ text := seg.text, speaker := seg.speaker, translation := seg.translation,
         start := (wordAt words b.2).start, stop := (wordAt words best_end).stop,
         matched := true, score := b.1,
         word_start_idx := (b.2 : Int), word_end_idx := (best_end : Int) }, best_end + 1)
    else
      ({ text := seg.text, speaker := seg.speaker, translation := seg.translation,
         start := seg.startTime, stop := seg.endTime, matched := false, score := b.1 }, cursor)

/-- Pass 1 of `align`: greedy cursor scan over the dialogue segments. -/
def pass1Go (words : List Word) : ℕ → List DialogueSeg → List AlignedSegment
  | _, [] => []
  | cursor, seg :: rest =>
    (p1both words cursor seg).1 :: pass1Go words (p1both words cursor seg).2 rest

/-- The pass-1 cursor value just before dialogue segment `k` is processed. -/
def p1cursor (words : List Word) : ℕ → List DialogueSeg → ℕ → ℕ
  | c, _, 0 => c
  | c, [], _ + 1 => c
  | c, seg :: rest, k + 1 => p1cursor words (p1both words c seg).2 rest k

/-- Pass-2 helper: scan `j = i-1, …, 0` for the nearest matched line before
`i` and return `results[j].word_end_idx + 1` (`0` when none is matched). -/
def prevWordEnd (results : List AlignedSegment) : ℕ → ℕ
  | 0 => 0
  | j + 1 =>
    match results.get? j with
    | some r => if r.matched then (r.word_end_idx + 1).toNat else prevWordEnd results j
    | none => prevWordEnd results j

/-- Scan a suffix of `results` for the first matched line and return its
`word_start_idx` (`len(words)` when none is matched). -/
def nwsGo (wlen : ℕ) : List AlignedSegment → ℕ
  | [] => wlen
  | r :: rs => if r.matched then r.word_start_idx.toNat else nwsGo wlen rs

/-- Pass-2 helper: the `word_start_idx` of the nearest matched line after `i`
(`len(words)` when none is matched). -/
def nextWordStart (results : List AlignedSegment) (wlen i : ℕ) : ℕ :=
  nwsGo wlen (results.drop (i + 1))

/-- Body of one pass-2 iteration of `align` at line index `i`: re-scan a
still-unmatched line inside the token range bracketed by its matched
neighbours and commit on the same threshold rule. -/
def pass2Step (words : List Word) (results : List AlignedSegment) (i : ℕ) :
    List AlignedSegment :=
  match results.get? i with
  | none => results
  | some ri =>
    if ri.matched then results
    else if normalize_text ri.text = [] then results
    else
      let prev_word_end := prevWordEnd results i
      let next_word_start := nextWordStart results words.length i
      if next_word_start ≤ prev_word_end then results
      else
        let ref_words := normalize_text ri.text
        let n := ref_words.length
        let b := best_match_in_range ref_words words prev_word_end next_word_start
        if MATCH_THRESHOLD ≤ b.1 ∧ b.2 + n ≤ words.length then
          results.set i
            { ri with
              start := (wordAt words b.2).start, stop := (wordAt words (b.2 + n - 1)).stop,
              matched := true, score := b.1,
              word_start_idx := (b.2 : Int), word_end_idx := ((b.2 + n - 1 : ℕ) : Int) }
        else results

/-- Pass 2 of `align`: `for i in range(n_segs)` over `pass2Step`. -/
def pass2 (words : List Word) (results : List AlignedSegment) : List AlignedSegment :=
  (List.range results.length).foldl (pass2Step words) results

/-- Writing one interpolated run: line `k` of the run receives
`[t_before + k·seg_dur, t_before + (k+1)·seg_dur]`; only `start`/`stop` are
written. -/
def assignRun (tBefore segDur : ℚ) : ℕ → List AlignedSegment → List AlignedSegment
  | _, [] => []
  | k, s :: ss =>
    { s with start := tBefore + k * segDur, stop := tBefore + (k + 1) * segDur }
      :: assignRun tBefore segDur (k + 1) ss

/-- The `while` loop of `_interpolate_unmatched`, with explicit fuel (the
loop advances at least one line per iteration, so fuel `= length` suffices).
`tBefore` is `results[run_start - 1].end` (or `0.0` at the start). -/
def interpGo : ℕ → ℚ → List AlignedSegment → List AlignedSegment
  | 0, _, l => l
  | _ + 1, _, [] => []
  | fuel + 1, tBefore, r :: rs =>
    if r.matched then r :: interpGo fuel r.stop rs
    else
      let run := r :: rs.takeWhile (fun s => !s.matched)
      let rest := rs.dropWhile (fun s => !s.matched)
      let runLen := run.length
      let tAfter :=
        match rest.head? with
        | some s => s.start
        | none => (run.getLastD r).stop + 2 * (runLen : ℚ)
      let segDur := (tAfter - tBefore) / (runLen : ℚ)
      assignRun tBefore segDur 0 run ++ interpGo fuel tAfter rest

/-- `_interpolate_unmatched(results)` of `align_whisper.py`. -/
def interpolate_unmatched (results : List AlignedSegment) : List AlignedSegment :=
  interpGo results.length 0 results

/-- `align(dialogue, words)`: pass 1, pass 2, then interpolation of the
remaining unmatched lines. -/
def align (dialogue : List DialogueSeg) (words : List Word) : List AlignedSegment :=
  interpolate_unmatched (pass2 words (pass1Go words 0 dialogue))

/-- Body of one `fix_overlaps` iteration: clamp `segments[i].end` when two
adjacent matched lines overlap. -/
def fixStep (segments : List AlignedSegment) (i : ℕ) : List AlignedSegment :=
  match segments.get? i, segments.get? (i + 1) with
  | some a, some b =>
    if a.matched ∧ b.matched ∧ b.start < a.stop then
      segments.set i { a with stop := max a.start (b.start - 5 / 100) }
    else segments
  | _, _ => segments

/-- `fix_overlaps(segments)`: `for i in range(len(segments) - 1)`. -/
def fix_overlaps (segments : List AlignedSegment) : List AlignedSegment :=
  (List.range (segments.length - 1)).foldl fixStep segments

/-- Body of one `_quick_greedy_align` iteration (pass-1-only probe used by
`auto_fill_gaps`): identical to the pass-1 body except that unmatched and
empty lines get `start = end = 0.0` instead of the placeholder times.  The
inline best-candidate loop of `_quick_greedy_align` is literally the body of
`_best_match_in_range`, so it is expressed through it. -/
def qgaBoth (words : List Word) (cursor : ℕ) (seg : DialogueSeg) : AlignedSegment × ℕ :=
  let ref_words := normalize_text seg.text
  let n := ref_words.length
  if n = 0 then
    ({ text := seg.text, speaker := seg.speaker, translation := seg.translation,
       start := 0, stop := 0, matched := false, score := 0 }, cursor)
  else
    let search_end := min (cursor + SEARCH_WINDOW) words.length
    let b := best_match_in_range ref_words words cursor search_end
    if MATCH_THRESHOLD ≤ b.1 then
      let best_end := b.2 + n - 1
      ({ text := seg.text, speaker := seg.speaker, translation := seg.translation,
         start := (wordAt words b.2).start, stop := (wordAt words best_end).stop,
         matched := true, score := b.1,
         word_start_idx := (b.2 : Int), word_end_idx := (best_end : Int) }, best_end + 1)
    else
      ({ text := seg.text, speaker := seg.speaker, translation := seg.translation,
         start := 0, stop := 0, matched := false, score := b.1 }, cursor)

/-- `_quick_greedy_align(words, dialogue)`. -/
def quickGo (words : List Word) : ℕ → List DialogueSeg → List AlignedSegment
  | _, [] => []
  | cursor, seg :: rest =>
    (qgaBoth words cursor seg).1 :: quickGo words (qgaBoth words cursor seg).2 rest

/-- `_quick_greedy_align(words, dialogue)`: fast pass-1-only alignment used to
probe for unmatched runs. -/
def quick_greedy_align (words : List Word) (dialogue : List DialogueSeg) :
    List AlignedSegment :=
  quickGo words 0 dialogue

/-- `auto_fill_gaps` anchor search: scan `j = run_start-1, …, 0` for the
nearest matched line and return its end time (`t_before`). -/
def anchorBefore (prelim : List AlignedSegment) : ℕ → Option ℚ
  | 0 => none
  | j + 1 =>
    match prelim.get? j with
    | some r => if r.matched then some r.stop else anchorBefore prelim j
    | none => anchorBefore prelim j

/-- Scan a suffix of `prelim` for the first matched line's start time. -/
def anchorAfterGo : List AlignedSegment → Option ℚ
  | [] => none
  | r :: rs => if r.matched then some r.start else anchorAfterGo rs

/-- `auto_fill_gaps` anchor search: scan `j = run_end, …, n-1` for the nearest
matched line and return its start time (`t_after`). -/
def anchorAfter (prelim : List AlignedSegment) (runEnd : ℕ) : Option ℚ :=
  anchorAfterGo (prelim.drop runEnd)

/-- `words_in_gap` count of `auto_fill_gaps`: tokens whose span lies fully
inside `[t_before, t_after]`. -/
def wordsInGap (words : List Word) (tBefore tAfter : ℚ) : ℕ :=
  (words.filter fun w => tBefore ≤ w.start ∧ w.stop ≤ tAfter).length

/-- The maximal runs of consecutive unmatched lines found by the `while` loop
of `auto_fill_gaps` (as half-open index intervals `[run_start, run_end)`),
with explicit fuel. -/
def runsGo : ℕ → ℕ → List AlignedSegment → List (ℕ × ℕ)
  | 0, _, _ => []
  | _ + 1, _, [] => []
  | fuel + 1, i, r :: rs =>
    if r.matched then runsGo fuel (i + 1) rs
    else
      let len := 1 + (rs.takeWhile (fun s => !s.matched)).length
      (i, i + len) :: runsGo fuel (i + len) (rs.dropWhile (fun s => !s.matched))

/-- All maximal unmatched runs of a preliminary alignment. -/
def unmatchedRuns (prelim : List AlignedSegment) : List (ℕ × ℕ) :=
  runsGo prelim.length 0 prelim

/-- The per-run decision chain of `auto_fill_gaps`: skip a run missing either
anchor; skip when `t_after - t_before < gap_threshold`; skip when more than 5
tokens lie fully inside `[t_before, t_after]`; otherwise emit
`(t_before, t_after, texts)`. -/
def gapDecision (prelim : List AlignedSegment) (words : List Word)
    (dialogue : List DialogueSeg) (gap_threshold : ℚ) (run : ℕ × ℕ) :
    Option (ℚ × ℚ × List String) :=
  match anchorBefore prelim run.1, anchorAfter prelim run.2 with
  | some tBefore, some tAfter =>
    if tAfter - tBefore < gap_threshold then none
    else if 5 < wordsInGap words tBefore tAfter then none
    else some (tBefore, tAfter, ((dialogue.drop run.1).take (run.2 - run.1)).map (·.text))
  | _, _ => none

/-- The `gaps_to_fill` list computed by the gap-detection phase of
`auto_fill_gaps` (steps 1–2; the re-transcription and splicing of step 3 call
external collaborators and are out of scope). -/
def gaps_to_fill (words : List Word) (dialogue : List DialogueSeg)
    (gap_threshold : ℚ) : List (ℚ × ℚ × List String) :=
  let prelim := quick_greedy_align words dialogue
  (unmatchedRuns prelim).filterMap (gapDecision prelim words dialogue gap_threshold)

/-- The whisper-cache branch of `main` (`align_whisper.py` lines 711–729):
the cached word list is loaded and aligned directly — there is no emptiness
check on this path. -/
def cacheRun (words : List Word) (segments : List DialogueSeg) : List AlignedSegment :=
  fix_overlaps (align segments words)

/-- The fresh-transcription branch of `main` after Whisper returns (lines
751–780, with download/transcription/gap-fill abstracted into the `words`
argument): `if not words: sys.exit(1)`, otherwise align and post-process. -/
def transcribeRun (words : List Word) (segments : List DialogueSeg) :
    Except String (List AlignedSegment) :=
  if words = [] then .error "ERROR: Whisper returned no words."
  else .ok (fix_overlaps (align segments words))

end AlignWhisper

namespace LlmAlign

open AlignWhisper (Word DialogueSeg wordAt)

/-- One output segment dict built by `llm_align.py` (`startTime`/`endTime`
kept as rational seconds; the `HH:MM:SS.ss` round-trip through
`fmt_time`/`_parse_fmt` is modelled as exact). -/
structure OutSeg where
  text : String
  speaker : String
  translation : String
  startTime : ℚ
  endTime : ℚ
  matched : Bool
  w_start : ℕ := 0
  w_end : ℕ := 0
deriving Repr, DecidableEq

/-- `_unmatched_seg(seg)`: placeholder output for an unmatched line. -/
def unmatched_seg (seg : DialogueSeg) : OutSeg :=
  { text := seg.text, speaker := seg.speaker, translation := seg.translation,
    startTime := seg.startTime, endTime := seg.endTime, matched := false }

/-- What the parsed LLM mapping holds for one dialogue index: `null`/missing,
a word-index span, or a malformed entry (the `KeyError`/`TypeError`/
`ValueError` path). -/
inductive LlmEntry
  | nullE
  | okE (ws we : Int)
  | badE
deriving Repr, DecidableEq

/-- One batch-level response of the external collaborator: API exception,
JSON parse failure, or a parsed mapping from dialogue index to entry. -/
inductive LlmResp
  | apiError
  | parseError
  | ok (m : ℕ → LlmEntry)

/-- `[dialogue[i:i+batch_size] for i in range(0, len(dialogue), batch_size)]`,
with fuel (`batch_size = 0` never occurs: the CLI default is 10). -/
def batchesGo (bs : ℕ) : ℕ → List α → List (List α)
  | 0, _ => []
  | _ + 1, [] => []
  | fuel + 1, l => l.take bs :: batchesGo bs fuel (l.drop bs)

/-- Split the dialogue into fixed-size batches. -/
def toBatches (bs : ℕ) (l : List α) : List (List α) :=
  batchesGo bs l.length l

/-- Processing of one `(seg.idx, seg)` inside the `resp = ok mapping` branch:
entry lookup, integer clamping into the valid token range, the
span-too-wide sanity check, and construction of the output dict.  Returns the
output segment and the updated `last_matched_w_end`. -/
def processSeg (words : List Word) (nWords : ℕ) (m : ℕ → LlmEntry) (lastW : ℕ)
    (iseg : ℕ × DialogueSeg) : OutSeg × ℕ :=
  let seg := iseg.2
  match m iseg.1 with
  | .nullE => (unmatched_seg seg, lastW)
  | .badE => (unmatched_seg seg, lastW)
  | .okE ws we =>
    let w_start_idx : Int := max 0 (min ws ((nWords : Int) - 1))
    let w_end_idx : Int := max w_start_idx (min we ((nWords : Int) - 1))
    let span_words : Int := w_end_idx - w_start_idx + 1
    let dialogue_words := ((seg.text.split (·.isWhitespace)).filter (· ≠ "")).length
    let max_allowed : Int := max 20 ((dialogue_words : Int) * 3)
    if max_allowed < span_words then (unmatched_seg seg, lastW)
    else
      ({ text := seg.text, speaker := seg.speaker, translation := seg.translation,
         startTime := (wordAt words w_start_idx.toNat).start,
         endTime := (wordAt words w_end_idx.toNat).stop,
         matched := true, w_start := w_start_idx.toNat, w_end := w_end_idx.toNat },
       w_end_idx.toNat)

/-- Processing of one batch of `align_with_llm`: returns the output segments
of the batch (in order) and the new cursor. -/
def processBatch (words : List Word) (nWords nDialogue : ℕ) (resp : LlmResp)
    (cursor : ℕ) (batch : List (ℕ × DialogueSeg)) : List OutSeg × ℕ :=
  match resp with
  | .apiError => (batch.map (fun p => unmatched_seg p.2), cursor)
  | .parseError =>
    -- cursor estimate: `max(cursor, int(batch[-1].idx / len(dialogue) * n_words))`
    let lastIdx := (batch.getLastD (0, {text := ""})).1
    (batch.map (fun p => unmatched_seg p.2), max cursor (lastIdx * nWords / nDialogue))
  | .ok m =>
    let folded := batch.foldl
      (fun (acc : List OutSeg × ℕ) p =>
        let r := processSeg words nWords m acc.2 p
        (acc.1 ++ [r.1], r.2))
      ([], cursor)
    (folded.1, if cursor < folded.2 then folded.2 + 1 else cursor)

/-- The batch loop of `align_with_llm`, threading the cursor and the batch
number (which selects the collaborator's response). -/
def batchLoop (words : List Word) (nWords nDialogue : ℕ) (resp : ℕ → LlmResp) :
    ℕ → ℕ → List (List (ℕ × DialogueSeg)) → List OutSeg
  | _, _, [] => []
  | batchNum, cursor, batch :: rest =>
    let r := processBatch words nWords nDialogue (resp batchNum) cursor batch
    r.1 ++ batchLoop words nWords nDialogue resp (batchNum + 1) r.2 rest

/-- The branch-dependent interpolated times of `llm_align.py`'s
`_interpolate_unmatched` for position `pos` of a run of length `runLen`
(before the `max(0, ·)` clamp).  `dflt` is only reached when both anchors are
missing, a case the caller skips. -/
def llmTimes (prevT nextT : Option ℚ) (runLen pos : ℕ) (dflt : ℚ × ℚ) : ℚ × ℚ :=
  match prevT, nextT with
  | some t0, some t1 =>
    if t0 < t1 then
      let span := (t1 - t0) / ((runLen : ℚ) + 1)
      (t0 + pos * span, t0 + (pos + 1) * span)
    else (t0 + pos * 2, t0 + pos * 2 + 2)
  | some t0, none => (t0 + pos * 2, t0 + pos * 2 + 2)
  | none, some t1 => (t1 - ((runLen : ℚ) - pos) * 2, t1 - ((runLen : ℚ) - pos) * 2 + 2)
  | none, none => dflt

/-- Writing one interpolated run in `llm_align.py`'s `_interpolate_unmatched`:
position `pos` in the run gets the branch-dependent times, clamped at 0. -/
def llmAssign (prevT nextT : Option ℚ) (runLen : ℕ) : ℕ → List OutSeg → List OutSeg
  | _, [] => []
  | pos, s :: ss =>
    let times := llmTimes prevT nextT runLen pos (s.startTime, s.endTime)
    { s with startTime := max 0 times.1, endTime := max 0 times.2 }
      :: llmAssign prevT nextT runLen (pos + 1) ss

/-- The run loop of `llm_align.py`'s `_interpolate_unmatched`, with fuel.
`prevT` is the `endTime` of the element just before the current position
(`none` at the start).  A run with no anchor on either side is left
untouched. -/
def llmInterpGo : ℕ → Option ℚ → List OutSeg → List OutSeg
  | 0, _, l => l
  | _ + 1, _, [] => []
  | fuel + 1, prevT, r :: rs =>
    if r.matched then r :: llmInterpGo fuel (some r.endTime) rs
    else
      let run := r :: rs.takeWhile (fun s => !s.matched)
      let rest := rs.dropWhile (fun s => !s.matched)
      let nextT : Option ℚ := rest.head?.map (·.startTime)
      if prevT = none ∧ nextT = none then run ++ llmInterpGo fuel prevT rest
      else llmAssign prevT nextT run.length 0 run ++ llmInterpGo fuel prevT rest

/-- `_interpolate_unmatched(results, dialogue)` of `llm_align.py`.  The
`results` dict is keyed by `seg.idx = 0, 1, …`, i.e. positionally. -/
def interpolate_unmatched (results : List OutSeg) : List OutSeg :=
  llmInterpGo results.length none results

/-- `align_with_llm(words, dialogue, …)`: batch the dialogue, let the
collaborator (`resp`) match each batch, then interpolate the unmatched
segments.  `window` only shapes the prompt shown to the collaborator and is
kept for signature fidelity. -/
def align_with_llm (words : List Word) (dialogue : List DialogueSeg)
    (resp : ℕ → LlmResp) (batch_size : ℕ) (window : ℕ) : List OutSeg :=
  let _ := window
  let indexed := (List.range dialogue.length).zip dialogue
  let batches := toBatches batch_size indexed
  interpolate_unmatched (batchLoop words words.length dialogue.length resp 0 0 batches)

end LlmAlign

/-! ## Lemmas about the fuzzy matcher (claim C3) -/

namespace AlignWhisper

theorem claimFirst_some_length {r : String} :
    ∀ {hs : List String} {us us' : List Bool},
      claimFirst r hs us = some us' → us'.length = us.length := by
  intro hs
  induction hs with
  | nil => intro us us' h; simp [claimFirst] at h
  | cons h t ih =>
    intro us us' hcl
    match us with
    | [] => simp [claimFirst] at hcl
    | u :: us =>
      rw [claimFirst] at hcl
      split at hcl
      · cases hcl; simp
      · cases hrec : claimFirst r t us with
        | none => rw [hrec] at hcl; cases hcl
        | some us'' =>
          rw [hrec] at hcl
          cases hcl
          simpa using ih hrec

theorem claimFirst_some_count {r : String} :
    ∀ {hs : List String} {us us' : List Bool},
      claimFirst r hs us = some us' → us'.count true = us.count true + 1 := by
  intro hs
  induction hs with
  | nil => intro us us' h; simp [claimFirst] at h
  | cons h t ih =>
    intro us us' hcl
    match us with
    | [] => simp [claimFirst] at hcl
    | u :: us =>
      rw [claimFirst] at hcl
      split at hcl
      · rename_i hcond
        cases hcl
        have : u = false := hcond.1
        subst this
        simp [List.count_cons]
      · cases hrec : claimFirst r t us with
        | none => rw [hrec] at hcl; cases hcl
        | some us'' =>
          rw [hrec] at hcl
          cases hcl
          have := ih hrec
          simp [List.count_cons, this]
          omega

theorem greedyFold_inv (hyp : List String) :
    ∀ (l : List String) (acc : ℕ × List Bool),
      acc.1 = acc.2.count true →
      (l.foldl (claimStep hyp) acc).1 = (l.foldl (claimStep hyp) acc).2.count true ∧
      (l.foldl (claimStep hyp) acc).2.length = acc.2.length ∧
      (l.foldl (claimStep hyp) acc).1 ≤ acc.1 + l.length := by
  intro l
  induction l with
  | nil => intro acc h; exact ⟨h, rfl, Nat.le_refl _⟩
  | cons r t ih =>
    intro acc h
    simp only [List.foldl_cons]
    cases hcl : claimFirst r hyp acc.2 with
    | none =>
      have hstep : claimStep hyp acc r = acc := by simp [claimStep, hcl]
      rw [hstep]
      have := ih acc h
      exact ⟨this.1, this.2.1, by have := this.2.2; simp only [List.length_cons]; omega⟩
    | some us =>
      have hstep : claimStep hyp acc r = (acc.1 + 1, us) := by simp [claimStep, hcl]
      rw [hstep]
      have hcnt : (acc.1 + 1 : ℕ) = us.count true := by
        rw [claimFirst_some_count hcl, h]
      have hlen : us.length = acc.2.length := claimFirst_some_length hcl
      have := ih (acc.1 + 1, us) hcnt
      refine ⟨this.1, by rw [this.2.1]; exact hlen, ?_⟩
      have := this.2.2
      simp only [List.length_cons]
      omega

theorem greedyClaims_le_hyp (ref hyp : List String) :
    (greedyClaims ref hyp).1 ≤ hyp.length := by
  have h := greedyFold_inv hyp ref (0, List.replicate hyp.length false)
    (by simp [List.count_replicate])
  unfold greedyClaims
  rw [h.1]
  have hle := List.count_le_length true (ref.foldl (claimStep hyp)
    (0, List.replicate hyp.length false)).2
  have hlen := h.2.1
  simp only [List.length_replicate] at hlen
  omega

theorem greedyClaims_le_ref (ref hyp : List String) :
    (greedyClaims ref hyp).1 ≤ ref.length := by
  have h := greedyFold_inv hyp ref (0, List.replicate hyp.length false)
    (by simp [List.count_replicate])
  have := h.2.2
  simpa [greedyClaims] using this

/-- Unfolding of `word_match_score` in the non-degenerate case. -/
theorem word_match_score_eq (ref hyp : List String) (h1 : ref ≠ []) (h2 : hyp ≠ []) :
    word_match_score ref hyp =
      (if ((greedyClaims ref hyp).1 : ℚ) / (hyp.length : ℚ) +
          ((greedyClaims ref hyp).1 : ℚ) / (ref.length : ℚ) = 0 then 0
       else 2 * (((greedyClaims ref hyp).1 : ℚ) / (hyp.length : ℚ)) *
            (((greedyClaims ref hyp).1 : ℚ) / (ref.length : ℚ)) /
            (((greedyClaims ref hyp).1 : ℚ) / (hyp.length : ℚ) +
             ((greedyClaims ref hyp).1 : ℚ) / (ref.length : ℚ))) := by
  unfold word_match_score
  rw [if_neg (by simp [h1, h2])]

end AlignWhisper

open AlignWhisper in
/-- Claim C3: `word_match_score(ref, hyp)` returns 0 when either word list is
empty; otherwise it performs the greedy claiming (each reference word in order
claims the first unclaimed hypothesis word with normalized Levenshtein
similarity ≥ 0.8, each hypothesis word claimed at most once — the fold
`greedyClaims`) and returns the harmonic mean of `precision = claims/|hyp|`
and `recall = claims/|ref|`, returning 0 when `precision + recall = 0`; and
for all inputs the result lies in [0, 1]. -/
theorem claim_C3 (ref hyp : List String) :
    (ref = [] ∨ hyp = [] → word_match_score ref hyp = 0) ∧
    0 ≤ word_match_score ref hyp ∧ word_match_score ref hyp ≤ 1 ∧
    (ref ≠ [] → hyp ≠ [] →
      word_match_score ref hyp =
        (if ((greedyClaims ref hyp).1 : ℚ) / (hyp.length : ℚ) +
            ((greedyClaims ref hyp).1 : ℚ) / (ref.length : ℚ) = 0 then 0
         else 2 * (((greedyClaims ref hyp).1 : ℚ) / (hyp.length : ℚ)) *
              (((greedyClaims ref hyp).1 : ℚ) / (ref.length : ℚ)) /
              (((greedyClaims ref hyp).1 : ℚ) / (hyp.length : ℚ) +
               ((greedyClaims ref hyp).1 : ℚ) / (ref.length : ℚ)))) := by
  by_cases hdeg : ref = [] ∨ hyp = []
  · have h0 : word_match_score ref hyp = 0 := by
      unfold word_match_score; rw [if_pos hdeg]
    refine ⟨fun _ => h0, by rw [h0], by rw [h0]; norm_num, ?_⟩
    intro h1 h2
    exact absurd hdeg (by simp [h1, h2])
  · push_neg at hdeg
    have heq := word_match_score_eq ref hyp hdeg.1 hdeg.2
    have hhyp : 0 < (hyp.length : ℚ) := by
      have := List.length_pos.mpr hdeg.2
      exact_mod_cast this
    have href : 0 < (ref.length : ℚ) := by
      have := List.length_pos.mpr hdeg.1
      exact_mod_cast this
    have hm0 : (0 : ℚ) ≤ ((greedyClaims ref hyp).1 : ℚ) := by positivity
    have hmh : ((greedyClaims ref hyp).1 : ℚ) ≤ (hyp.length : ℚ) := by
      exact_mod_cast greedyClaims_le_hyp ref hyp
    have hmr : ((greedyClaims ref hyp).1 : ℚ) ≤ (ref.length : ℚ) := by
      exact_mod_cast greedyClaims_le_ref ref hyp
    set p : ℚ := ((greedyClaims ref hyp).1 : ℚ) / (hyp.length : ℚ) with hp
    set r : ℚ := ((greedyClaims ref hyp).1 : ℚ) / (ref.length : ℚ) with hr
    have hp0 : 0 ≤ p := by rw [hp]; positivity
    have hr0 : 0 ≤ r := by rw [hr]; positivity
    have hp1 : p ≤ 1 := by rw [hp, div_le_one hhyp]; exact hmh
    have hr1 : r ≤ 1 := by rw [hr, div_le_one href]; exact hmr
    refine ⟨fun h => absurd h (by simp [hdeg.1, hdeg.2]), ?_, ?_, fun _ _ => heq⟩
    · rw [heq]
      split
      · exact le_refl 0
      · rename_i hsum
        have hpos : 0 < p + r := lt_of_le_of_ne (by positivity) (Ne.symm hsum)
        positivity
    · rw [heq]
      split
      · norm_num
      · rename_i hsum
        have hpos : 0 < p + r := lt_of_le_of_ne (by positivity) (Ne.symm hsum)
        rw [div_le_one hpos]
        nlinarith [mul_nonneg (sub_nonneg.mpr hp1) hr0, mul_nonneg (sub_nonneg.mpr hr1) hp0]

/-! ## Structural lemmas about the interpolator (claims C4, C5, C1) -/

namespace AlignWhisper

theorem takeWhile_append_all {α : Type} {p : α → Bool} :
    ∀ (l1 l2 : List α), (∀ x ∈ l1, p x = true) →
      (l1 ++ l2).takeWhile p = l1 ++ l2.takeWhile p := by
  intro l1
  induction l1 with
  | nil => intro l2 _; rfl
  | cons a t ih =>
    intro l2 h
    simp [List.takeWhile_cons, h a (by simp), ih l2 (fun x hx => h x (by simp [hx]))]

theorem dropWhile_append_all {α : Type} {p : α → Bool} :
    ∀ (l1 l2 : List α), (∀ x ∈ l1, p x = true) →
      (l1 ++ l2).dropWhile p = l2.dropWhile p := by
  intro l1
  induction l1 with
  | nil => intro l2 _; rfl
  | cons a t ih =>
    intro l2 h
    simp only [List.cons_append, List.dropWhile_cons, h a (by simp)]
    exact ih l2 (fun x hx => h x (by simp [hx]))

theorem takeWhile_head_false {α : Type} {p : α → Bool} :
    ∀ (l : List α), (∀ s, l.head? = some s → p s = false) → l.takeWhile p = [] := by
  intro l h
  match l with
  | [] => rfl
  | a :: t => simp [List.takeWhile_cons, h a rfl]

theorem dropWhile_head_false {α : Type} {p : α → Bool} :
    ∀ (l : List α), (∀ s, l.head? = some s → p s = false) → l.dropWhile p = l := by
  intro l h
  match l with
  | [] => rfl
  | a :: t => simp [List.dropWhile_cons, h a rfl]

theorem assignRun_length (t d : ℚ) :
    ∀ (k0 : ℕ) (l : List AlignedSegment), (assignRun t d k0 l).length = l.length := by
  intro k0 l
  induction l generalizing k0 with
  | nil => rfl
  | cons s ss ih => simp [assignRun, ih]

theorem assignRun_get? (t d : ℚ) :
    ∀ (l : List AlignedSegment) (k0 k : ℕ),
      (assignRun t d k0 l).get? k =
        (l.get? k).map fun s =>
          { s with start := t + ((k0 + k : ℕ) : ℚ) * d,
                   stop := t + (((k0 + k : ℕ) : ℚ) + 1) * d } := by
  intro l
  induction l with
  | nil => intro k0 k; rfl
  | cons s ss ih =>
    intro k0 k
    match k with
    | 0 =>
      simp [assignRun]
    | k + 1 =>
      simp only [assignRun, List.get?_cons_succ]
      rw [ih (k0 + 1) k]
      have : k0 + 1 + k = k0 + (k + 1) := by omega
      rw [this]

/-- The time bound `t_after` chosen by `_interpolate_unmatched` for a run
followed by `post` (the list of remaining lines, starting matched or empty). -/
def tAfterOf (run post : List AlignedSegment) : ℚ :=
  match post.head? with
  | some s => s.start
  | none => (((run.getLast?).map (·.stop)).getD 0) + 2 * (run.length : ℚ)

theorem interpGo_matched_lead :
    ∀ (pre : List AlignedSegment) (fuel : ℕ) (t : ℚ) (rest : List AlignedSegment),
      (∀ r ∈ pre, r.matched = true) → pre.length ≤ fuel →
      interpGo fuel t (pre ++ rest) =
        pre ++ interpGo (fuel - pre.length) (((pre.getLast?).map (·.stop)).getD t) rest := by
  intro pre
  induction pre with
  | nil => intro fuel t rest _ _; simp
  | cons a pre' ih =>
    intro fuel t rest hm hf
    match fuel, hf with
    | fuel + 1, hf =>
      have ham : a.matched = true := hm a (by simp)
      simp only [List.cons_append]
      rw [interpGo, if_pos ham, ih fuel a.stop rest (fun r hr => hm r (by simp [hr]))
        (by simpa using hf)]
      have hlast : (((a :: pre').getLast?).map (·.stop)).getD t =
          ((pre'.getLast?).map (·.stop)).getD a.stop := by
        match pre' with
        | [] => simp
        | b :: t' =>
          rw [List.getLast?_cons_cons]
          cases hl : (b :: t').getLast? with
          | none => simp at hl
          | some x => simp [hl]
      simp only [List.length_cons, Nat.succ_sub_succ]
      rw [hlast]

theorem interpGo_run (fuel : ℕ) (t : ℚ) (run post : List AlignedSegment)
    (hne : run ≠ []) (hrun : ∀ r ∈ run, r.matched = false)
    (hpost : ∀ s, post.head? = some s → s.matched = true) :
    interpGo (fuel + 1) t (run ++ post) =
      assignRun t ((tAfterOf run post - t) / (run.length : ℚ)) 0 run ++
        interpGo fuel (tAfterOf run post) post := by
  match run, hne with
  | r :: runTail, _ =>
    have hr : r.matched = false := hrun r (by simp)
    have htail : ∀ x ∈ runTail, (fun s => !s.matched) x = true := by
      intro x hx; simp [hrun x (by simp [hx])]
    have hposthead : ∀ s, post.head? = some s → (fun s => !s.matched) s = false := by
      intro s hs; simp [hpost s hs]
    simp only [List.cons_append]
    rw [interpGo, if_neg (by simp [hr])]
    have htake : (runTail ++ post).takeWhile (fun s => !s.matched) = runTail := by
      rw [takeWhile_append_all runTail post htail, takeWhile_head_false post hposthead,
        List.append_nil]
    have hdrop : (runTail ++ post).dropWhile (fun s => !s.matched) = post := by
      rw [dropWhile_append_all runTail post htail, dropWhile_head_false post hposthead]
    rw [htake, hdrop]
    have hafter : (match post.head? with
        | some s => s.start
        | none => ((r :: runTail).getLastD r).stop + 2 * ((r :: runTail).length : ℚ)) =
        tAfterOf (r :: runTail) post := by
      unfold tAfterOf
      match post with
      | [] =>
        simp only [List.head?_nil]
        rw [List.getLastD_eq_getLast?]
        cases hl : (r :: runTail).getLast? with
        | none => simp at hl
        | some x => simp [hl]
      | s :: t => rfl
    simp only [hafter]

end AlignWhisper

namespace LlmAlign

theorem llmAssign_length (prevT nextT : Option ℚ) (runLen : ℕ) :
    ∀ (k0 : ℕ) (l : List OutSeg), (llmAssign prevT nextT runLen k0 l).length = l.length := by
  intro k0 l
  induction l generalizing k0 with
  | nil => rfl
  | cons s ss ih => simp [llmAssign, ih]

theorem llmAssign_get? (prevT nextT : Option ℚ) (runLen : ℕ) :
    ∀ (l : List OutSeg) (k0 k : ℕ),
      (llmAssign prevT nextT runLen k0 l).get? k =
        (l.get? k).map fun s =>
          { s with
            startTime := max 0 (llmTimes prevT nextT runLen (k0 + k)
              (s.startTime, s.endTime)).1,
            endTime := max 0 (llmTimes prevT nextT runLen (k0 + k)
              (s.startTime, s.endTime)).2 } := by
  intro l
  induction l with
  | nil => intro k0 k; rfl
  | cons s ss ih =>
    intro k0 k
    match k with
    | 0 => simp [llmAssign]
    | k + 1 =>
      simp only [llmAssign, List.get?_cons_succ]
      rw [ih (k0 + 1) k]
      have : k0 + 1 + k = k0 + (k + 1) := by omega
      rw [this]

theorem llmInterpGo_matched_lead :
    ∀ (pre : List OutSeg) (fuel : ℕ) (t : Option ℚ) (rest : List OutSeg),
      (∀ r ∈ pre, r.matched = true) → pre.length ≤ fuel →
      llmInterpGo fuel t (pre ++ rest) =
        pre ++ llmInterpGo (fuel - pre.length)
          ((pre.getLast?).elim t (fun s => some s.endTime)) rest := by
  intro pre
  induction pre with
  | nil => intro fuel t rest _ _; simp
  | cons a pre' ih =>
    intro fuel t rest hm hf
    match fuel, hf with
    | fuel + 1, hf =>
      have ham : a.matched = true := hm a (by simp)
      simp only [List.cons_append]
      rw [llmInterpGo, if_pos ham, ih fuel (some a.endTime) rest
        (fun r hr => hm r (by simp [hr])) (by simpa using hf)]
      have hlast : ((a :: pre').getLast?).elim t (fun s => some s.endTime) =
          (pre'.getLast?).elim (some a.endTime) (fun s => some s.endTime) := by
        match pre' with
        | [] => simp
        | b :: t' =>
          rw [List.getLast?_cons_cons]
          cases hl : (b :: t').getLast? with
          | none => simp at hl
          | some x => simp [hl]
      simp only [List.length_cons, Nat.succ_sub_succ]
      rw [hlast]

theorem llmInterpGo_run (fuel : ℕ) (prevT : Option ℚ) (run post : List OutSeg)
    (hne : run ≠ []) (hrun : ∀ r ∈ run, r.matched = false)
    (hpost : ∀ s, post.head? = some s → s.matched = true)
    (hanch : ¬(prevT = none ∧ post.head? = none)) :
    llmInterpGo (fuel + 1) prevT (run ++ post) =
      llmAssign prevT (post.head?.map (·.startTime)) run.length 0 run ++
        llmInterpGo fuel prevT post := by
  match run, hne with
  | r :: runTail, _ =>
    have hr : r.matched = false := hrun r (by simp)
    have htail : ∀ x ∈ runTail, (fun s => !s.matched) x = true := by
      intro x hx; simp [hrun x (by simp [hx])]
    have hposthead : ∀ s, post.head? = some s → (fun s => !s.matched) s = false := by
      intro s hs; simp [hpost s hs]
    simp only [List.cons_append]
    rw [llmInterpGo, if_neg (by simp [hr])]
    have htake : (runTail ++ post).takeWhile (fun s => !s.matched) = runTail := by
      rw [AlignWhisper.takeWhile_append_all runTail post htail,
        AlignWhisper.takeWhile_head_false post hposthead, List.append_nil]
    have hdrop : (runTail ++ post).dropWhile (fun s => !s.matched) = post := by
      rw [AlignWhisper.dropWhile_append_all runTail post htail,
        AlignWhisper.dropWhile_head_false post hposthead]
    rw [htake, hdrop]
    rw [if_neg (by
      intro hcon
      exact hanch ⟨hcon.1, by simpa using hcon.2⟩)]

end LlmAlign

open AlignWhisper in
/-- Claim C4 counterexample: for the trailing-run case the Interpolator does
not use `t_after = t_before + 2·run_length`.  With one matched line ending at
10 and one trailing unmatched line whose provisional end time is 0, the code
synthesizes `t_after = 0 + 2·1 = 2` (the run's own last provisional end, not
`t_before`), so the line gets `[10, 2]` instead of the claimed `[10, 12]`. -/
theorem claim_C4_counterexample :
    (align [{ text := "hello" }, { text := "zzz" }]
        [⟨"hello", "hello", 9, 10⟩]).get? 1 =
      some { text := "zzz", speaker := "", translation := "", start := 10, stop := 2,
             matched := false, score := 0 } ∧
    ¬((2 : ℚ) = 10 + 2 * 1) := by
  constructor
  · with_unfolding_all decide
  · norm_num

namespace AlignWhisper

/-- General description of what `_interpolate_unmatched` writes into position
`k` of a maximal unmatched run bracketed by `pre` (all matched) and `post`
(empty, or starting with a matched line). -/
theorem interp_run_get (pre run post : List AlignedSegment)
    (hpre : ∀ r ∈ pre, r.matched = true)
    (hne : run ≠ [])
    (hrun : ∀ r ∈ run, r.matched = false)
    (hpost : ∀ s, post.head? = some s → s.matched = true)
    (k : ℕ) (rk : AlignedSegment) (hrk : run.get? k = some rk) :
    (interpolate_unmatched (pre ++ run ++ post)).get? (pre.length + k) =
      some { rk with
        start := ((pre.getLast?).map (·.stop)).getD 0 +
          (k : ℚ) * ((tAfterOf run post - ((pre.getLast?).map (·.stop)).getD 0) /
            (run.length : ℚ)),
        stop := ((pre.getLast?).map (·.stop)).getD 0 +
          ((k : ℚ) + 1) * ((tAfterOf run post - ((pre.getLast?).map (·.stop)).getD 0) /
            (run.length : ℚ)) } := by
  have hk : k < run.length := List.get?_eq_some.mp hrk |>.1
  unfold interpolate_unmatched
  rw [List.append_assoc]
  rw [interpGo_matched_lead pre _ 0 (run ++ post) hpre
    (by simp only [List.length_append]; omega)]
  have hfuel : (pre ++ (run ++ post)).length - pre.length =
      (run.length + post.length - 1) + 1 := by
    have : run.length ≠ 0 := by simpa using fun h => hne (List.length_eq_zero.mp h)
    simp only [List.length_append]
    omega
  rw [hfuel, interpGo_run _ _ run post hne hrun hpost]
  rw [List.get?_append_right (by omega)]
  have hidx : pre.length + k - pre.length = k := by omega
  rw [hidx, List.get?_append (by rw [assignRun_length]; exact hk), assignRun_get? _ _ run 0 k,
    hrk]
  simp only [Option.map_some, Nat.zero_add, Nat.cast_ofNat, Option.some.injEq]
  norm_num [mul_comm]

end AlignWhisper

open AlignWhisper in
/-- Claim C4, amended: the Interpolator assigns each maximal run of
still-unmatched lines `run_length` equal consecutive sub-intervals of
`[t_before, t_after]` in order, where `t_before` is the end time of the
nearest matched predecessor (0.0 when the run starts at index 0) and
`t_after` is the start time of the nearest matched successor; when the run
extends to the end of the sequence, it synthesizes
`t_after = (provisional end time of the run's last line) + 2·run_length`
(not `t_before + 2·run_length`). -/
theorem claim_C4 (pre run post : List AlignedSegment)
    (hpre : ∀ r ∈ pre, r.matched = true)
    (hne : run ≠ [])
    (hrun : ∀ r ∈ run, r.matched = false)
    (hpost : ∀ s, post.head? = some s → s.matched = true)
    (k : ℕ) (rk : AlignedSegment) (hrk : run.get? k = some rk) :
    (interpolate_unmatched (pre ++ run ++ post)).get? (pre.length + k) =
      some { rk with
        start := ((pre.getLast?).map (·.stop)).getD 0 +
          (k : ℚ) * ((tAfterOf run post - ((pre.getLast?).map (·.stop)).getD 0) /
            (run.length : ℚ)),
        stop := ((pre.getLast?).map (·.stop)).getD 0 +
          ((k : ℚ) + 1) * ((tAfterOf run post - ((pre.getLast?).map (·.stop)).getD 0) /
            (run.length : ℚ)) } :=
  interp_run_get pre run post hpre hne hrun hpost k rk hrk

open AlignWhisper in
/-- Witness for C4 at a concrete input: one matched line ending at 10
followed by a trailing unmatched line with provisional end 0 receives the
sub-interval `[10, 2]`. -/
theorem claim_C4_witness :
    (interpolate_unmatched
        [{ text := "hello", speaker := "", translation := "", start := 9, stop := 10,
           matched := true, score := 1, word_start_idx := 0, word_end_idx := 0 },
         { text := "zzz", speaker := "", translation := "", start := 0, stop := 0,
           matched := false, score := 0 }]).get? 1 =
      some { text := "zzz", speaker := "", translation := "", start := 10, stop := 2,
             matched := false, score := 0 } := by
  have h := claim_C4
    [{ text := "hello", speaker := "", translation := "", start := 9, stop := 10,
       matched := true, score := 1, word_start_idx := 0, word_end_idx := 0 }]
    [{ text := "zzz", speaker := "", translation := "", start := 0, stop := 0,
       matched := false, score := 0 }]
    [] (by intro r hr; simp at hr; rw [hr]) (by simp)
    (by intro r hr; simp at hr; rw [hr]) (by intro s hs; simp at hs)
    0 _ rfl
  simp only [List.append_nil, List.singleton_append, List.getLast?_singleton] at h
  norm_num [tAfterOf] at h
  rw [List.get?_eq_getElem?]
  exact h

open AlignWhisper in
/-- Witness for C3 at concrete inputs: both the empty-input clause and the
F1 clause instantiated. -/
theorem claim_C3_witness :
    word_match_score [] ["hello"] = 0 ∧
    word_match_score ["hello", "there"] ["hella", "zzz"] = 1 / 2 := by
  constructor
  · exact (claim_C3 [] ["hello"]).1 (Or.inl rfl)
  · have h := (claim_C3 ["hello", "there"] ["hella", "zzz"]).2.2.2
      (by decide) (by decide)
    rw [h]
    have hg : (greedyClaims ["hello", "there"] ["hella", "zzz"]).1 = 1 := by
      with_unfolding_all decide
    rw [hg]
    norm_num

namespace LlmAlign

/-- General description of what `llm_align.py`'s `_interpolate_unmatched`
writes into position `k` of a maximal unmatched run bracketed by `pre` (all
matched) and `post` (empty, or starting with a matched line), provided at
least one anchor exists. -/
theorem llm_interp_run_get (pre run post : List OutSeg)
    (hpre : ∀ r ∈ pre, r.matched = true)
    (hne : run ≠ [])
    (hrun : ∀ r ∈ run, r.matched = false)
    (hpost : ∀ s, post.head? = some s → s.matched = true)
    (hanch : ¬(pre = [] ∧ post = []))
    (k : ℕ) (rk : OutSeg) (hrk : run.get? k = some rk) :
    (interpolate_unmatched (pre ++ run ++ post)).get? (pre.length + k) =
      some { rk with
        startTime := max 0 ((llmTimes ((pre.getLast?).elim none fun s => some s.endTime)
          (post.head?.map (·.startTime)) run.length k (rk.startTime, rk.endTime)).1),
        endTime := max 0 ((llmTimes ((pre.getLast?).elim none fun s => some s.endTime)
          (post.head?.map (·.startTime)) run.length k (rk.startTime, rk.endTime)).2) } := by
  have hk : k < run.length := List.get?_eq_some.mp hrk |>.1
  unfold interpolate_unmatched
  rw [List.append_assoc]
  rw [llmInterpGo_matched_lead pre _ none (run ++ post) hpre
    (by simp only [List.length_append]; omega)]
  have hfuel : (pre ++ (run ++ post)).length - pre.length =
      (run.length + post.length - 1) + 1 := by
    have : run.length ≠ 0 := by simpa using fun h => hne (List.length_eq_zero.mp h)
    simp only [List.length_append]
    omega
  have hanch' : ¬((pre.getLast?).elim none (fun s => some s.endTime) = (none : Option ℚ) ∧
      post.head? = none) := by
    intro hcon
    apply hanch
    constructor
    · cases hl : pre.getLast? with
      | none => exact List.getLast?_eq_none_iff.mp hl
      | some x => rw [hl] at hcon; simp at hcon
    · exact List.head?_eq_none_iff.mp hcon.2
  rw [hfuel, llmInterpGo_run _ _ run post hne hrun hpost hanch']
  rw [List.get?_append_right (by omega)]
  have hidx : pre.length + k - pre.length = k := by omega
  rw [hidx, List.get?_append (by rw [llmAssign_length]; exact hk),
    llmAssign_get? _ _ _ run 0 k, hrk]
  simp only [Option.map_some, Nat.zero_add]
  rfl

end LlmAlign

open AlignWhisper LlmAlign in
/-- Claim C5 counterexample: on the same matched anchors (predecessor ending
at 10, successor starting at 22) and the same run of one unmatched line, the
fuzzy-matcher backend's Interpolator assigns `[10, 22]` while the LLM
backend's Interpolator assigns `[10, 16]` — the two backends do not assign
identical interpolated timestamps. -/
theorem claim_C5_counterexample :
    (AlignWhisper.interpolate_unmatched
        [{ text := "a", speaker := "", translation := "", start := 9, stop := 10,
           matched := true, score := 1, word_start_idx := 0, word_end_idx := 0 },
         { text := "u", speaker := "", translation := "", start := 0, stop := 0,
           matched := false, score := 0 },
         { text := "b", speaker := "", translation := "", start := 22, stop := 23,
           matched := true, score := 1, word_start_idx := 1, word_end_idx := 1 }]).get? 1 =
      some { text := "u", speaker := "", translation := "", start := 10, stop := 22,
             matched := false, score := 0 } ∧
    (LlmAlign.interpolate_unmatched
        [{ text := "a", speaker := "", translation := "", startTime := 9, endTime := 10,
           matched := true },
         { text := "u", speaker := "", translation := "", startTime := 0, endTime := 0,
           matched := false },
         { text := "b", speaker := "", translation := "", startTime := 22, endTime := 23,
           matched := true }]).get? 1 =
      some { text := "u", speaker := "", translation := "", startTime := 10, endTime := 16,
             matched := false } ∧
    (22 : ℚ) ≠ 16 := by
  refine ⟨?_, ?_, by norm_num⟩
  · with_unfolding_all decide
  · with_unfolding_all decide

open AlignWhisper LlmAlign in
/-- Claim C5, amended: both backends run an interpolator over the remaining
unmatched runs, but with different spacing formulas.  For a run of length `L`
bracketed by a matched predecessor ending at `t0` and a matched successor
starting at `t1`, the fuzzy-matcher backend divides `[t0, t1]` into `L` equal
sub-intervals (`seg_dur = (t1-t0)/L`), while the LLM backend (when `t0 < t1`)
divides it into `L+1` equal sub-intervals and assigns only the first `L`
(`span = (t1-t0)/(L+1)`, clamped at 0), so the assigned timestamps differ in
general. -/
theorem claim_C5 :
    (∀ (pre run post : List AlignedSegment) (s0 s1 : AlignedSegment) (k : ℕ)
        (rk : AlignedSegment),
      (∀ r ∈ pre, r.matched = true) → pre.getLast? = some s0 →
      run ≠ [] → (∀ r ∈ run, r.matched = false) →
      post.head? = some s1 → s1.matched = true →
      run.get? k = some rk →
      (AlignWhisper.interpolate_unmatched (pre ++ run ++ post)).get? (pre.length + k) =
        some { rk with
          start := s0.stop + (k : ℚ) * ((s1.start - s0.stop) / (run.length : ℚ)),
          stop := s0.stop + ((k : ℚ) + 1) * ((s1.start - s0.stop) / (run.length : ℚ)) }) ∧
    (∀ (pre run post : List OutSeg) (s0 s1 : OutSeg) (k : ℕ) (rk : OutSeg),
      (∀ r ∈ pre, r.matched = true) → pre.getLast? = some s0 →
      run ≠ [] → (∀ r ∈ run, r.matched = false) →
      post.head? = some s1 → s1.matched = true →
      s0.endTime < s1.startTime →
      run.get? k = some rk →
      (LlmAlign.interpolate_unmatched (pre ++ run ++ post)).get? (pre.length + k) =
        some { rk with
          startTime := max 0 (s0.endTime +
            (k : ℚ) * ((s1.startTime - s0.endTime) / ((run.length : ℚ) + 1))),
          endTime := max 0 (s0.endTime +
            ((k : ℚ) + 1) * ((s1.startTime - s0.endTime) / ((run.length : ℚ) + 1))) }) := by
  constructor
  · intro pre run post s0 s1 k rk hpre hlast hne hrun hhead hs1 hrk
    have h := interp_run_get pre run post hpre hne hrun
      (fun s hs => by rw [hhead] at hs; cases hs; exact hs1) k rk hrk
    rw [hlast] at h
    have hafter : tAfterOf run post = s1.start := by
      unfold tAfterOf
      rw [hhead]
    rw [hafter] at h
    simpa using h
  · intro pre run post s0 s1 k rk hpre hlast hne hrun hhead hs1 hlt hrk
    have h := llm_interp_run_get pre run post hpre hne hrun
      (fun s hs => by rw [hhead] at hs; cases hs; exact hs1)
      (by
        intro hcon
        rw [hcon.2] at hhead
        simp at hhead)
      k rk hrk
    rw [hlast, hhead] at h
    simp only [Option.elim, Option.map_some, Option.map_some', llmTimes] at h
    rw [if_pos hlt] at h
    exact h

open AlignWhisper LlmAlign in
/-- Witness for C5 at concrete inputs: the fuzzy backend assigns `[10, 22]`
and the LLM backend assigns `[10, 16]` to the single unmatched line between
anchors ending at 10 and starting at 22. -/
theorem claim_C5_witness :
    (AlignWhisper.interpolate_unmatched
        [{ text := "a", speaker := "", translation := "", start := 9, stop := 10,
           matched := true, score := 1, word_start_idx := 0, word_end_idx := 0 },
         { text := "u", speaker := "", translation := "", start := 0, stop := 0,
           matched := false, score := 0 },
         { text := "b", speaker := "", translation := "", start := 22, stop := 23,
           matched := true, score := 1, word_start_idx := 1, word_end_idx := 1 }]).get? 1 =
      some { text := "u", speaker := "", translation := "", start := 10, stop := 22,
             matched := false, score := 0 } ∧
    (LlmAlign.interpolate_unmatched
        [{ text := "a", speaker := "", translation := "", startTime := 9, endTime := 10,
           matched := true },
         { text := "u", speaker := "", translation := "", startTime := 0, endTime := 0,
           matched := false },
         { text := "b", speaker := "", translation := "", startTime := 22, endTime := 23,
           matched := true }]).get? 1 =
      some { text := "u", speaker := "", translation := "", startTime := 10, endTime := 16,
             matched := false } := by
  constructor
  · have h := claim_C5.1
      [{ text := "a", speaker := "", translation := "", start := 9, stop := 10,
         matched := true, score := 1, word_start_idx := 0, word_end_idx := 0 }]
      [{ text := "u", speaker := "", translation := "", start := 0, stop := 0,
         matched := false, score := 0 }]
      [{ text := "b", speaker := "", translation := "", start := 22, stop := 23,
         matched := true, score := 1, word_start_idx := 1, word_end_idx := 1 }]
      _ _ 0 _
      (by intro r hr; simp at hr; rw [hr]) rfl (by simp)
      (by intro r hr; simp at hr; rw [hr]) rfl rfl rfl
    norm_num at h
    rw [List.get?_eq_getElem?]
    convert h using 3
  · have h := claim_C5.2
      [{ text := "a", speaker := "", translation := "", startTime := 9, endTime := 10,
         matched := true }]
      [{ text := "u", speaker := "", translation := "", startTime := 0, endTime := 0,
         matched := false }]
      [{ text := "b", speaker := "", translation := "", startTime := 22, endTime := 23,
         matched := true }]
      _ _ 0 _
      (by intro r hr; simp at hr; rw [hr]) rfl (by simp)
      (by intro r hr; simp at hr; rw [hr]) rfl rfl (by norm_num) rfl
    norm_num at h
    rw [List.get?_eq_getElem?]
    convert h using 3

open AlignWhisper in
/-- Claim C6: the Gap Detector attempts a patch for an unmatched run exactly
when a matched anchor exists on both sides, the anchor-to-anchor duration
`t_after - t_before` is at least `gap_threshold`, and at most 5 tokens lie
with their span fully inside `[t_before, t_after]`; otherwise the run is
skipped.  The last two conjuncts check the boundary concretely: with
`gap_threshold = 6`, an anchored silent run of exactly 6 seconds (end 10 to
start 16) with 0 tokens inside is patched, while one of 5.99 seconds is not. -/
theorem claim_C6 (words : List Word) (dialogue : List DialogueSeg) (θ : ℚ)
    (e : ℚ × ℚ × List String) (run : ℕ × ℕ) :
    (e ∈ gaps_to_fill words dialogue θ ↔
      ∃ r ∈ unmatchedRuns (quick_greedy_align words dialogue),
        gapDecision (quick_greedy_align words dialogue) words dialogue θ r = some e) ∧
    ((gapDecision (quick_greedy_align words dialogue) words dialogue θ run).isSome ↔
      ∃ tb ta, anchorBefore (quick_greedy_align words dialogue) run.1 = some tb ∧
        anchorAfter (quick_greedy_align words dialogue) run.2 = some ta ∧
        θ ≤ ta - tb ∧ wordsInGap words tb ta ≤ 5) ∧
    gaps_to_fill [⟨"a", "a", 9, 10⟩, ⟨"b", "b", 16, 17⟩]
      [{ text := "a" }, { text := "qqq" }, { text := "b" }] 6 = [(10, 16, ["qqq"])] ∧
    gaps_to_fill [⟨"a", "a", 9, 10⟩, ⟨"b", "b", 1599/100, 17⟩]
      [{ text := "a" }, { text := "qqq" }, { text := "b" }] 6 = [] := by
  refine ⟨?_, ?_, ?_, ?_⟩
  · simp [gaps_to_fill, List.mem_filterMap]
  · unfold gapDecision
    cases hb : anchorBefore (quick_greedy_align words dialogue) run.1 with
    | none =>
      simp only [Option.isSome_none]
      constructor
      · intro h; cases h
      · rintro ⟨tb, ta, htb, _⟩
        cases htb
    | some tb =>
      cases ha : anchorAfter (quick_greedy_align words dialogue) run.2 with
      | none =>
        simp only [Option.isSome_none]
        constructor
        · intro h; cases h
        · rintro ⟨tb', ta, _, hta, _⟩
          cases hta
      | some ta =>
        simp only []
        constructor
        · intro h
          split at h
          · cases h
          · split at h
            · cases h
            · rename_i hdur hcnt
              exact ⟨tb, ta, rfl, rfl, by linarith [not_lt.mp hdur], by omega⟩
        · rintro ⟨tb', ta', htb, hta, hdur, hcnt⟩
          cases htb; cases hta
          rw [if_neg (by linarith), if_neg (by omega)]
          simp
  · with_unfolding_all decide
  · with_unfolding_all decide

open AlignWhisper in
/-- Claim C9 (code bug): the empty-token-stream guard exists only on the
fresh-transcription path of `main` (`sys.exit(1)`); on the whisper-cache path
there is no such check, and an empty cached word list is silently aligned and
interpolated into an output — the run does not fail loudly.  With one
dialogue line and zero tokens, the cache path produces one output segment
with synthesized times `[0, 2]`. -/
theorem claim_C9_code_bug :
    cacheRun [] [{ text := "hello" }] =
      [{ text := "hello", speaker := "", translation := "", start := 0, stop := 2,
         matched := false, score := 0 }] ∧
    transcribeRun [] [{ text := "hello" }] =
      .error "ERROR: Whisper returned no words." := by
  constructor
  · with_unfolding_all decide
  · rfl

namespace AlignWhisper

theorem pass1Go_nil (words : List Word) (c : ℕ) : pass1Go words c [] = [] := rfl

theorem pass1Go_cons (words : List Word) (c : ℕ) (seg : DialogueSeg)
    (rest : List DialogueSeg) :
    pass1Go words c (seg :: rest) =
      (p1both words c seg).1 :: pass1Go words (p1both words c seg).2 rest := rfl

theorem p1both_empty (words : List Word) (c : ℕ) (seg : DialogueSeg)
    (hn : (normalize_text seg.text).length = 0) :
    p1both words c seg =
      ({ text := seg.text, speaker := seg.speaker, translation := seg.translation,
         start := seg.startTime, stop := seg.endTime, matched := false, score := 0 }, c) := by
  unfold p1both
  rw [if_pos hn]

theorem p1both_matched (words : List Word) (c : ℕ) (seg : DialogueSeg)
    (hn : (normalize_text seg.text).length ≠ 0)
    (hsc : MATCH_THRESHOLD ≤ (best_match_in_range (normalize_text seg.text) words c
      (min (c + SEARCH_WINDOW) words.length)).1) :
    p1both words c seg =
      ({ text := seg.text, speaker := seg.speaker, translation := seg.translation,
         start := (wordAt words (best_match_in_range (normalize_text seg.text) words c
           (min (c + SEARCH_WINDOW) words.length)).2).start,
         stop := (wordAt words ((best_match_in_range (normalize_text seg.text) words c
           (min (c + SEARCH_WINDOW) words.length)).2 +
             (normalize_text seg.text).length - 1)).stop,
         matched := true,
         score := (best_match_in_range (normalize_text seg.text) words c
           (min (c + SEARCH_WINDOW) words.length)).1,
         word_start_idx := ((best_match_in_range (normalize_text seg.text) words c
           (min (c + SEARCH_WINDOW) words.length)).2 : Int),
         word_end_idx := (((best_match_in_range (normalize_text seg.text) words c
           (min (c + SEARCH_WINDOW) words.length)).2 +
             (normalize_text seg.text).length - 1 : ℕ) : Int) },
       (best_match_in_range (normalize_text seg.text) words c
         (min (c + SEARCH_WINDOW) words.length)).2 + (normalize_text seg.text).length) := by
  have h1 : (best_match_in_range (normalize_text seg.text) words c
      (min (c + SEARCH_WINDOW) words.length)).2 + (normalize_text seg.text).length - 1 + 1 =
      (best_match_in_range (normalize_text seg.text) words c
        (min (c + SEARCH_WINDOW) words.length)).2 + (normalize_text seg.text).length := by
    omega
  unfold p1both
  rw [if_neg hn, if_pos hsc]
  simp only [h1]

theorem p1both_unmatched (words : List Word) (c : ℕ) (seg : DialogueSeg)
    (hn : (normalize_text seg.text).length ≠ 0)
    (hsc : (best_match_in_range (normalize_text seg.text) words c
      (min (c + SEARCH_WINDOW) words.length)).1 < MATCH_THRESHOLD) :
    p1both words c seg =
      ({ text := seg.text, speaker := seg.speaker, translation := seg.translation,
         start := seg.startTime, stop := seg.endTime, matched := false,
         score := (best_match_in_range (normalize_text seg.text) words c
           (min (c + SEARCH_WINDOW) words.length)).1 }, c) := by
  unfold p1both
  rw [if_neg hn, if_neg (not_le.mpr hsc)]

theorem pass2Step_commit (words : List Word) (results : List AlignedSegment) (i : ℕ)
    (ri : AlignedSegment) (hget : results.get? i = some ri) (hm : ri.matched = false)
    (hn : normalize_text ri.text ≠ [])
    (hroom : prevWordEnd results i < nextWordStart results words.length i)
    (hsc : MATCH_THRESHOLD ≤ (best_match_in_range (normalize_text ri.text) words
      (prevWordEnd results i) (nextWordStart results words.length i)).1)
    (hbound : (best_match_in_range (normalize_text ri.text) words
      (prevWordEnd results i) (nextWordStart results words.length i)).2 +
        (normalize_text ri.text).length ≤ words.length) :
    pass2Step words results i = results.set i
      { ri with
        start := (wordAt words (best_match_in_range (normalize_text ri.text) words
          (prevWordEnd results i) (nextWordStart results words.length i)).2).start,
        stop := (wordAt words ((best_match_in_range (normalize_text ri.text) words
          (prevWordEnd results i) (nextWordStart results words.length i)).2 +
            (normalize_text ri.text).length - 1)).stop,
        matched := true,
        score := (best_match_in_range (normalize_text ri.text) words
          (prevWordEnd results i) (nextWordStart results words.length i)).1,
        word_start_idx := ((best_match_in_range (normalize_text ri.text) words
          (prevWordEnd results i) (nextWordStart results words.length i)).2 : Int),
        word_end_idx := (((best_match_in_range (normalize_text ri.text) words
          (prevWordEnd results i) (nextWordStart results words.length i)).2 +
            (normalize_text ri.text).length - 1 : ℕ) : Int) } := by
  unfold pass2Step
  rw [hget]
  dsimp only
  rw [if_neg (by simp [hm]), if_neg hn, if_neg (not_le.mpr hroom),
    if_pos (And.intro hsc hbound)]

theorem pass2Step_skip_matched (words : List Word) (results : List AlignedSegment) (i : ℕ)
    (ri : AlignedSegment) (hget : results.get? i = some ri) (hm : ri.matched = true) :
    pass2Step words results i = results := by
  unfold pass2Step
  rw [hget]
  dsimp only
  rw [if_pos hm]

theorem pass2Step_skip_empty (words : List Word) (results : List AlignedSegment) (i : ℕ)
    (ri : AlignedSegment) (hget : results.get? i = some ri)
    (hn : normalize_text ri.text = []) :
    pass2Step words results i = results := by
  unfold pass2Step
  rw [hget]
  dsimp only
  by_cases hm : ri.matched = true
  · rw [if_pos hm]
  · rw [if_neg hm, if_pos hn]

theorem pass2Step_skip_noroom (words : List Word) (results : List AlignedSegment) (i : ℕ)
    (ri : AlignedSegment) (hget : results.get? i = some ri)
    (hroom : nextWordStart results words.length i ≤ prevWordEnd results i) :
    pass2Step words results i = results := by
  unfold pass2Step
  rw [hget]
  dsimp only
  by_cases hm : ri.matched = true
  · rw [if_pos hm]
  · rw [if_neg hm]
    by_cases hn : normalize_text ri.text = []
    · rw [if_pos hn]
    · rw [if_neg hn, if_pos hroom]

theorem pass2Step_miss (words : List Word) (results : List AlignedSegment) (i : ℕ)
    (ri : AlignedSegment) (hget : results.get? i = some ri)
    (hsc : ¬(MATCH_THRESHOLD ≤ (best_match_in_range (normalize_text ri.text) words
      (prevWordEnd results i) (nextWordStart results words.length i)).1 ∧
        (best_match_in_range (normalize_text ri.text) words
          (prevWordEnd results i) (nextWordStart results words.length i)).2 +
            (normalize_text ri.text).length ≤ words.length)) :
    pass2Step words results i = results := by
  unfold pass2Step
  rw [hget]
  dsimp only
  by_cases hm : ri.matched = true
  · rw [if_pos hm]
  · rw [if_neg hm]
    by_cases hn : normalize_text ri.text = []
    · rw [if_pos hn]
    · rw [if_neg hn]
      by_cases hroom : nextWordStart results words.length i ≤ prevWordEnd results i
      · rw [if_pos hroom]
      · rw [if_neg hroom, if_neg hsc]

theorem pass2Step_none (words : List Word) (results : List AlignedSegment) (i : ℕ)
    (hget : results.get? i = none) :
    pass2Step words results i = results := by
  unfold pass2Step
  rw [hget]

end AlignWhisper

open AlignWhisper in
/-- Claim C7: in both pass 1 and pass 2 of the Windowed Aligner, a reference
line whose best candidate span scores at (in particular exactly at)
`MATCH_THRESHOLD = 0.35` is committed as matched with span `[j, j+n-1]`,
`start_time = token[j].start`, `end_time = token[j+n-1].end`, and (in pass 1)
the cursor advanced to `j + n`; a best score strictly below the threshold
leaves the line unmatched in that pass. -/
theorem claim_C7 :
    (∀ (words : List Word) (cursor : ℕ) (seg : DialogueSeg) (rest : List DialogueSeg)
        (b : ℚ × ℕ),
      (normalize_text seg.text).length ≠ 0 →
      b = best_match_in_range (normalize_text seg.text) words cursor
        (min (cursor + SEARCH_WINDOW) words.length) →
      (MATCH_THRESHOLD ≤ b.1 →
        pass1Go words cursor (seg :: rest) =
          { text := seg.text, speaker := seg.speaker, translation := seg.translation,
            start := (wordAt words b.2).start,
            stop := (wordAt words (b.2 + (normalize_text seg.text).length - 1)).stop,
            matched := true, score := b.1, word_start_idx := (b.2 : Int),
            word_end_idx := ((b.2 + (normalize_text seg.text).length - 1 : ℕ) : Int) } ::
            pass1Go words (b.2 + (normalize_text seg.text).length) rest) ∧
      (b.1 < MATCH_THRESHOLD →
        pass1Go words cursor (seg :: rest) =
          { text := seg.text, speaker := seg.speaker, translation := seg.translation,
            start := seg.startTime, stop := seg.endTime, matched := false,
            score := b.1 } :: pass1Go words cursor rest)) ∧
    (∀ (words : List Word) (results : List AlignedSegment) (i : ℕ) (ri : AlignedSegment)
        (b : ℚ × ℕ),
      results.get? i = some ri → ri.matched = false → normalize_text ri.text ≠ [] →
      prevWordEnd results i < nextWordStart results words.length i →
      b = best_match_in_range (normalize_text ri.text) words (prevWordEnd results i)
        (nextWordStart results words.length i) →
      (MATCH_THRESHOLD ≤ b.1 → b.2 + (normalize_text ri.text).length ≤ words.length →
        pass2Step words results i = results.set i
          { ri with
            start := (wordAt words b.2).start,
            stop := (wordAt words (b.2 + (normalize_text ri.text).length - 1)).stop,
            matched := true, score := b.1, word_start_idx := (b.2 : Int),
            word_end_idx := ((b.2 + (normalize_text ri.text).length - 1 : ℕ) : Int) }) ∧
      (b.1 < MATCH_THRESHOLD → pass2Step words results i = results)) := by
  constructor
  · intro words cursor seg rest b hn hb
    subst hb
    constructor
    · intro hsc
      rw [pass1Go_cons, p1both_matched words cursor seg hn hsc]
    · intro hsc
      rw [pass1Go_cons, p1both_unmatched words cursor seg hn hsc]
  · intro words results i ri b hget hm hn hroom hb
    subst hb
    constructor
    · intro hsc hbound
      exact pass2Step_commit words results i ri hget hm hn hroom hsc hbound
    · intro hsc
      exact pass2Step_miss words results i ri hget
        (fun hcon => absurd hcon.1 (not_le.mpr hsc))

set_option maxRecDepth 400000 in
open AlignWhisper in
/-- Witness for C7 at exact-threshold inputs.  The reference line has 20
normalized words of which exactly 7 match the 20-token window, so the single
candidate scores precision = recall = 7/20 and F1 = 7/20 = `MATCH_THRESHOLD`
exactly: pass 1 commits it with span [0,19] and cursor 20.  For pass 2, a
still-unmatched copy of the same line bracketed after a matched line at token
0 scores 7/20 on its single candidate [1,20] and is committed. -/
theorem claim_C7_witness :
    (pass2Step
      [⟨"a", "a", 0, 1⟩,
       ⟨"w01", "w01", 1, 2⟩, ⟨"w02", "w02", 2, 3⟩, ⟨"w03", "w03", 3, 4⟩,
       ⟨"w04", "w04", 4, 5⟩, ⟨"w05", "w05", 5, 6⟩, ⟨"w06", "w06", 6, 7⟩,
       ⟨"w07", "w07", 7, 8⟩, ⟨"zz9", "zz9", 8, 9⟩, ⟨"zz9", "zz9", 9, 10⟩,
       ⟨"zz9", "zz9", 10, 11⟩, ⟨"zz9", "zz9", 11, 12⟩, ⟨"zz9", "zz9", 12, 13⟩,
       ⟨"zz9", "zz9", 13, 14⟩, ⟨"zz9", "zz9", 14, 15⟩, ⟨"zz9", "zz9", 15, 16⟩,
       ⟨"zz9", "zz9", 16, 17⟩, ⟨"zz9", "zz9", 17, 18⟩, ⟨"zz9", "zz9", 18, 19⟩,
       ⟨"zz9", "zz9", 19, 20⟩, ⟨"zz9", "zz9", 20, 21⟩]
      [{ text := "a", speaker := "", translation := "", start := 0, stop := 1,
         matched := true, score := 1, word_start_idx := 0, word_end_idx := 0 },
       { text := "w01 w02 w03 w04 w05 w06 w07 qqq qqq qqq qqq qqq qqq qqq qqq qqq qqq qqq qqq qqq",
         speaker := "", translation := "", start := 0, stop := 0, matched := false,
         score := 0 }] 1 =
      [{ text := "a", speaker := "", translation := "", start := 0, stop := 1,
         matched := true, score := 1, word_start_idx := 0, word_end_idx := 0 },
       { text := "w01 w02 w03 w04 w05 w06 w07 qqq qqq qqq qqq qqq qqq qqq qqq qqq qqq qqq qqq qqq",
         speaker := "", translation := "", start := 1, stop := 21, matched := true,
         score := 35 / 100, word_start_idx := 1, word_end_idx := 20 }]) ∧
    pass1Go
      [⟨"w01", "w01", 0, 1⟩, ⟨"w02", "w02", 1, 2⟩, ⟨"w03", "w03", 2, 3⟩,
       ⟨"w04", "w04", 3, 4⟩, ⟨"w05", "w05", 4, 5⟩, ⟨"w06", "w06", 5, 6⟩,
       ⟨"w07", "w07", 6, 7⟩, ⟨"zz9", "zz9", 7, 8⟩, ⟨"zz9", "zz9", 8, 9⟩,
       ⟨"zz9", "zz9", 9, 10⟩, ⟨"zz9", "zz9", 10, 11⟩, ⟨"zz9", "zz9", 11, 12⟩,
       ⟨"zz9", "zz9", 12, 13⟩, ⟨"zz9", "zz9", 13, 14⟩, ⟨"zz9", "zz9", 14, 15⟩,
       ⟨"zz9", "zz9", 15, 16⟩, ⟨"zz9", "zz9", 16, 17⟩, ⟨"zz9", "zz9", 17, 18⟩,
       ⟨"zz9", "zz9", 18, 19⟩, ⟨"zz9", "zz9", 19, 20⟩] 0
      [{ text := "w01 w02 w03 w04 w05 w06 w07 qqq qqq qqq qqq qqq qqq qqq qqq qqq qqq qqq qqq qqq" }] =
      [{ text := "w01 w02 w03 w04 w05 w06 w07 qqq qqq qqq qqq qqq qqq qqq qqq qqq qqq qqq qqq qqq",
         speaker := "", translation := "", start := 0, stop := 20, matched := true,
         score := 35 / 100, word_start_idx := 0, word_end_idx := 19 }] := by
  constructor
  · have hb2 : best_match_in_range
        (normalize_text "w01 w02 w03 w04 w05 w06 w07 qqq qqq qqq qqq qqq qqq qqq qqq qqq qqq qqq qqq qqq")
        [⟨"a", "a", 0, 1⟩,
         ⟨"w01", "w01", 1, 2⟩, ⟨"w02", "w02", 2, 3⟩, ⟨"w03", "w03", 3, 4⟩,
         ⟨"w04", "w04", 4, 5⟩, ⟨"w05", "w05", 5, 6⟩, ⟨"w06", "w06", 6, 7⟩,
         ⟨"w07", "w07", 7, 8⟩, ⟨"zz9", "zz9", 8, 9⟩, ⟨"zz9", "zz9", 9, 10⟩,
         ⟨"zz9", "zz9", 10, 11⟩, ⟨"zz9", "zz9", 11, 12⟩, ⟨"zz9", "zz9", 12, 13⟩,
         ⟨"zz9", "zz9", 13, 14⟩, ⟨"zz9", "zz9", 14, 15⟩, ⟨"zz9", "zz9", 15, 16⟩,
         ⟨"zz9", "zz9", 16, 17⟩, ⟨"zz9", "zz9", 17, 18⟩, ⟨"zz9", "zz9", 18, 19⟩,
         ⟨"zz9", "zz9", 19, 20⟩, ⟨"zz9", "zz9", 20, 21⟩]
        (prevWordEnd
          [{ text := "a", speaker := "", translation := "", start := 0, stop := 1,
             matched := true, score := 1, word_start_idx := 0, word_end_idx := 0 },
           { text := "w01 w02 w03 w04 w05 w06 w07 qqq qqq qqq qqq qqq qqq qqq qqq qqq qqq qqq qqq qqq",
             speaker := "", translation := "", start := 0, stop := 0, matched := false,
             score := 0 }] 1)
        (nextWordStart
          [{ text := "a", speaker := "", translation := "", start := 0, stop := 1,
             matched := true, score := 1, word_start_idx := 0, word_end_idx := 0 },
           { text := "w01 w02 w03 w04 w05 w06 w07 qqq qqq qqq qqq qqq qqq qqq qqq qqq qqq qqq qqq qqq",
             speaker := "", translation := "", start := 0, stop := 0, matched := false,
             score := 0 }] 21 1) = (35 / 100, 1) := by
      with_unfolding_all decide
    have h := (claim_C7.2
      [⟨"a", "a", 0, 1⟩,
       ⟨"w01", "w01", 1, 2⟩, ⟨"w02", "w02", 2, 3⟩, ⟨"w03", "w03", 3, 4⟩,
       ⟨"w04", "w04", 4, 5⟩, ⟨"w05", "w05", 5, 6⟩, ⟨"w06", "w06", 6, 7⟩,
       ⟨"w07", "w07", 7, 8⟩, ⟨"zz9", "zz9", 8, 9⟩, ⟨"zz9", "zz9", 9, 10⟩,
       ⟨"zz9", "zz9", 10, 11⟩, ⟨"zz9", "zz9", 11, 12⟩, ⟨"zz9", "zz9", 12, 13⟩,
       ⟨"zz9", "zz9", 13, 14⟩, ⟨"zz9", "zz9", 14, 15⟩, ⟨"zz9", "zz9", 15, 16⟩,
       ⟨"zz9", "zz9", 16, 17⟩, ⟨"zz9", "zz9", 17, 18⟩, ⟨"zz9", "zz9", 18, 19⟩,
       ⟨"zz9", "zz9", 19, 20⟩, ⟨"zz9", "zz9", 20, 21⟩]
      [{ text := "a", speaker := "", translation := "", start := 0, stop := 1,
         matched := true, score := 1, word_start_idx := 0, word_end_idx := 0 },
       { text := "w01 w02 w03 w04 w05 w06 w07 qqq qqq qqq qqq qqq qqq qqq qqq qqq qqq qqq qqq qqq",
         speaker := "", translation := "", start := 0, stop := 0, matched := false,
         score := 0 }] 1
      { text := "w01 w02 w03 w04 w05 w06 w07 qqq qqq qqq qqq qqq qqq qqq qqq qqq qqq qqq qqq qqq",
        speaker := "", translation := "", start := 0, stop := 0, matched := false,
        score := 0 }
      (35 / 100, 1) rfl rfl (by with_unfolding_all decide)
      (by with_unfolding_all decide) hb2.symm).1 (by norm_num [MATCH_THRESHOLD])
      (by with_unfolding_all decide)
    rw [h]
    with_unfolding_all decide
  have hb : best_match_in_range
      (normalize_text "w01 w02 w03 w04 w05 w06 w07 qqq qqq qqq qqq qqq qqq qqq qqq qqq qqq qqq qqq qqq")
      [⟨"w01", "w01", 0, 1⟩, ⟨"w02", "w02", 1, 2⟩, ⟨"w03", "w03", 2, 3⟩,
       ⟨"w04", "w04", 3, 4⟩, ⟨"w05", "w05", 4, 5⟩, ⟨"w06", "w06", 5, 6⟩,
       ⟨"w07", "w07", 6, 7⟩, ⟨"zz9", "zz9", 7, 8⟩, ⟨"zz9", "zz9", 8, 9⟩,
       ⟨"zz9", "zz9", 9, 10⟩, ⟨"zz9", "zz9", 10, 11⟩, ⟨"zz9", "zz9", 11, 12⟩,
       ⟨"zz9", "zz9", 12, 13⟩, ⟨"zz9", "zz9", 13, 14⟩, ⟨"zz9", "zz9", 14, 15⟩,
       ⟨"zz9", "zz9", 15, 16⟩, ⟨"zz9", "zz9", 16, 17⟩, ⟨"zz9", "zz9", 17, 18⟩,
       ⟨"zz9", "zz9", 18, 19⟩, ⟨"zz9", "zz9", 19, 20⟩] 0 (min (0 + SEARCH_WINDOW) 20) =
      (35 / 100, 0) := by
    with_unfolding_all decide
  have h := (claim_C7.1
    [⟨"w01", "w01", 0, 1⟩, ⟨"w02", "w02", 1, 2⟩, ⟨"w03", "w03", 2, 3⟩,
     ⟨"w04", "w04", 3, 4⟩, ⟨"w05", "w05", 4, 5⟩, ⟨"w06", "w06", 5, 6⟩,
     ⟨"w07", "w07", 6, 7⟩, ⟨"zz9", "zz9", 7, 8⟩, ⟨"zz9", "zz9", 8, 9⟩,
     ⟨"zz9", "zz9", 9, 10⟩, ⟨"zz9", "zz9", 10, 11⟩, ⟨"zz9", "zz9", 11, 12⟩,
     ⟨"zz9", "zz9", 12, 13⟩, ⟨"zz9", "zz9", 13, 14⟩, ⟨"zz9", "zz9", 14, 15⟩,
     ⟨"zz9", "zz9", 15, 16⟩, ⟨"zz9", "zz9", 16, 17⟩, ⟨"zz9", "zz9", 17, 18⟩,
     ⟨"zz9", "zz9", 18, 19⟩, ⟨"zz9", "zz9", 19, 20⟩] 0
    { text := "w01 w02 w03 w04 w05 w06 w07 qqq qqq qqq qqq qqq qqq qqq qqq qqq qqq qqq qqq qqq" }
    [] (35 / 100, 0) (by with_unfolding_all decide) hb.symm).1 (by norm_num [MATCH_THRESHOLD])
  · rw [h]
    with_unfolding_all decide

namespace AlignWhisper

theorem pass1Go_length (words : List Word) :
    ∀ (ds : List DialogueSeg) (c : ℕ), (pass1Go words c ds).length = ds.length := by
  intro ds
  induction ds with
  | nil => intro c; rfl
  | cons seg rest ih => intro c; simp [pass1Go_cons, ih]

theorem p1both_text (words : List Word) (c : ℕ) (seg : DialogueSeg) :
    (p1both words c seg).1.text = seg.text ∧
    (p1both words c seg).1.speaker = seg.speaker ∧
    (p1both words c seg).1.translation = seg.translation := by
  unfold p1both
  dsimp only
  split
  · exact ⟨rfl, rfl, rfl⟩
  · split
    · exact ⟨rfl, rfl, rfl⟩
    · exact ⟨rfl, rfl, rfl⟩

theorem pass1Go_text (words : List Word) :
    ∀ (ds : List DialogueSeg) (c k : ℕ),
      ((pass1Go words c ds).get? k).map (·.text) = (ds.get? k).map (·.text) := by
  intro ds
  induction ds with
  | nil => intro c k; rfl
  | cons seg rest ih =>
    intro c k
    rw [pass1Go_cons]
    match k with
    | 0 => simpa using (p1both_text words c seg).1
    | k + 1 => simpa using ih (p1both words c seg).2 k

/-- Case analysis of one pass-2 iteration: either the list is unchanged, or a
previously-unmatched line `i` is committed with the fields computed by the
bounded best-match search. -/
theorem pass2Step_shape (words : List Word) (results : List AlignedSegment) (i : ℕ) :
    pass2Step words results i = results ∨
    ∃ ri, results.get? i = some ri ∧ ri.matched = false ∧ normalize_text ri.text ≠ [] ∧
      prevWordEnd results i < nextWordStart results words.length i ∧
      MATCH_THRESHOLD ≤ (best_match_in_range (normalize_text ri.text) words
        (prevWordEnd results i) (nextWordStart results words.length i)).1 ∧
      (best_match_in_range (normalize_text ri.text) words (prevWordEnd results i)
        (nextWordStart results words.length i)).2 +
          (normalize_text ri.text).length ≤ words.length ∧
      pass2Step words results i = results.set i
        { ri with
          start := (wordAt words (best_match_in_range (normalize_text ri.text) words
            (prevWordEnd results i) (nextWordStart results words.length i)).2).start,
          stop := (wordAt words ((best_match_in_range (normalize_text ri.text) words
            (prevWordEnd results i) (nextWordStart results words.length i)).2 +
              (normalize_text ri.text).length - 1)).stop,
          matched := true,
          score := (best_match_in_range (normalize_text ri.text) words
            (prevWordEnd results i) (nextWordStart results words.length i)).1,
          word_start_idx := ((best_match_in_range (normalize_text ri.text) words
            (prevWordEnd results i) (nextWordStart results words.length i)).2 : Int),
          word_end_idx := (((best_match_in_range (normalize_text ri.text) words
            (prevWordEnd results i) (nextWordStart results words.length i)).2 +
              (normalize_text ri.text).length - 1 : ℕ) : Int) } := by
  cases hget : results.get? i with
  | none => exact Or.inl (pass2Step_none words results i hget)
  | some ri =>
    by_cases hm : ri.matched = true
    · exact Or.inl (pass2Step_skip_matched words results i ri hget hm)
    · by_cases hn : normalize_text ri.text = []
      · exact Or.inl (pass2Step_skip_empty words results i ri hget hn)
      · by_cases hroom : nextWordStart results words.length i ≤ prevWordEnd results i
        · exact Or.inl (pass2Step_skip_noroom words results i ri hget hroom)
        · by_cases hcommit : MATCH_THRESHOLD ≤ (best_match_in_range
              (normalize_text ri.text) words (prevWordEnd results i)
              (nextWordStart results words.length i)).1 ∧
              (best_match_in_range (normalize_text ri.text) words (prevWordEnd results i)
                (nextWordStart results words.length i)).2 +
                  (normalize_text ri.text).length ≤ words.length
          · have hm' : ri.matched = false := by simpa using hm
            exact Or.inr ⟨ri, rfl, hm', hn, not_le.mp hroom, hcommit.1, hcommit.2,
              pass2Step_commit words results i ri hget hm' hn
                (not_le.mp hroom) hcommit.1 hcommit.2⟩
          · exact Or.inl (pass2Step_miss words results i ri hget hcommit)

theorem pass2Step_length (words : List Word) (results : List AlignedSegment) (i : ℕ) :
    (pass2Step words results i).length = results.length := by
  rcases pass2Step_shape words results i with h | ⟨ri, _, _, _, _, _, _, h⟩
  · rw [h]
  · rw [h, List.length_set]

theorem pass2_length (words : List Word) (results : List AlignedSegment) :
    (pass2 words results).length = results.length := by
  unfold pass2
  generalize List.range results.length = js
  induction js generalizing results with
  | nil => rfl
  | cons j js ih =>
    simp only [List.foldl_cons]
    rw [ih (pass2Step words results j), pass2Step_length]

theorem pass2Step_text (words : List Word) (results : List AlignedSegment) (i k : ℕ) :
    ((pass2Step words results i).get? k).map (·.text) =
      (results.get? k).map (·.text) := by
  rcases pass2Step_shape words results i with h | ⟨ri, hget, _, _, _, _, _, h⟩
  · rw [h]
  · rw [h]
    by_cases hik : i = k
    · subst hik
      rw [List.get?_set_eq_of_lt _ (List.get?_eq_some.mp hget).1, hget]
      rfl
    · rw [List.get?_set_ne _ _ hik]

theorem pass2_text (words : List Word) (results : List AlignedSegment) (k : ℕ) :
    ((pass2 words results).get? k).map (·.text) = (results.get? k).map (·.text) := by
  unfold pass2
  generalize List.range results.length = js
  induction js generalizing results with
  | nil => rfl
  | cons j js ih =>
    simp only [List.foldl_cons]
    rw [ih (pass2Step words results j), pass2Step_text]

theorem interpGo_length :
    ∀ (fuel : ℕ) (t : ℚ) (l : List AlignedSegment),
      (interpGo fuel t l).length = l.length := by
  intro fuel
  induction fuel with
  | zero => intro t l; rfl
  | succ fuel ih =>
    intro t l
    match l with
    | [] => rfl
    | r :: rs =>
      rw [interpGo]
      split
      · simp [ih]
      · simp only [List.length_append, assignRun_length, ih, List.length_cons]
        have hsplit := List.takeWhile_append_dropWhile (fun s => !s.matched) rs
        have hlen : (rs.takeWhile (fun s => !s.matched)).length +
            (rs.dropWhile (fun s => !s.matched)).length = rs.length := by
          conv_rhs => rw [← hsplit]
          rw [List.length_append]
        omega

/-- Element-wise effect of the interpolation pass: every field except
`start`/`stop` is preserved at every position, and matched lines are
preserved entirely. -/
theorem interpGo_pres :
    ∀ (fuel : ℕ) (t : ℚ) (l : List AlignedSegment) (k : ℕ),
      ((interpGo fuel t l).get? k = none ∧ l.get? k = none) ∨
      (∃ a b, l.get? k = some a ∧ (interpGo fuel t l).get? k = some b ∧
        b.text = a.text ∧ b.speaker = a.speaker ∧ b.translation = a.translation ∧
        b.matched = a.matched ∧ b.score = a.score ∧
        b.word_start_idx = a.word_start_idx ∧ b.word_end_idx = a.word_end_idx ∧
        (a.matched = true → b = a)) := by
  intro fuel
  induction fuel with
  | zero =>
    intro t l k
    cases h : l.get? k with
    | none => exact Or.inl ⟨h, rfl⟩
    | some a =>
      exact Or.inr ⟨a, a, rfl, h, rfl, rfl, rfl, rfl, rfl, rfl, rfl, fun _ => rfl⟩
  | succ fuel ih =>
    intro t l k
    match l with
    | [] => exact Or.inl ⟨rfl, rfl⟩
    | r :: rs =>
      rw [interpGo]
      by_cases hr : r.matched = true
      · rw [if_pos hr]
        match k with
        | 0 =>
          exact Or.inr ⟨r, r, rfl, rfl, rfl, rfl, rfl, rfl, rfl, rfl, rfl, fun _ => rfl⟩
        | k + 1 =>
          simpa using ih r.stop rs k
      · rw [if_neg hr]
        have hsplit : rs.takeWhile (fun s => !s.matched) ++
            rs.dropWhile (fun s => !s.matched) = rs :=
          List.takeWhile_append_dropWhile (fun s => !s.matched) rs
        have hdecomp : r :: rs = (r :: rs.takeWhile (fun s => !s.matched)) ++
            rs.dropWhile (fun s => !s.matched) := by
          simp [hsplit]
        have hrunm : ∀ x ∈ r :: rs.takeWhile (fun s => !s.matched), x.matched = false := by
          intro x hx
          rcases List.mem_cons.mp hx with h0 | hmemt
          · rw [h0]; simpa using hr
          · have := List.mem_takeWhile_imp hmemt
            simpa using this
        by_cases hk : k < (r :: rs.takeWhile (fun s => !s.matched)).length
        · rw [List.get?_append (by rwa [assignRun_length])]
          rw [assignRun_get?]
          cases hget : (r :: rs.takeWhile (fun s => !s.matched)).get? k with
          | none =>
            have := List.get?_eq_none.mp hget
            omega
          | some a =>
            have hgetl : (r :: rs).get? k = some a := by
              rw [hdecomp, List.get?_append hk, hget]
            refine Or.inr ⟨a, _, hgetl, rfl, rfl, rfl, rfl, rfl, rfl, rfl, rfl, ?_⟩
            intro ham
            exfalso
            have hmem : a ∈ r :: rs.takeWhile (fun s => !s.matched) :=
              List.get?_mem hget
            have := hrunm a hmem
            rw [ham] at this; cases this
        · rw [List.get?_append_right (by rw [assignRun_length]; exact not_lt.mp hk)]
          rw [assignRun_length]
          have hrec := ih (match (rs.dropWhile (fun s => !s.matched)).head? with
            | some s => s.start
            | none => ((r :: rs.takeWhile (fun s => !s.matched)).getLastD r).stop +
                2 * ((r :: rs.takeWhile (fun s => !s.matched)).length : ℚ))
            (rs.dropWhile (fun s => !s.matched))
            (k - (r :: rs.takeWhile (fun s => !s.matched)).length)
          rcases hrec with ⟨h1, h2⟩ | ⟨a, b, ha, hb, hrest⟩
          · refine Or.inl ⟨h1, ?_⟩
            rw [hdecomp, List.get?_append_right (not_lt.mp hk)]
            exact h2
          · refine Or.inr ⟨a, b, ?_, hb, hrest⟩
            rw [hdecomp, List.get?_append_right (not_lt.mp hk)]
            exact ha

end AlignWhisper

namespace LlmAlign

theorem batchesGo_flatten (bs : ℕ) (hbs : 0 < bs) :
    ∀ (fuel : ℕ) (l : List (ℕ × AlignWhisper.DialogueSeg)), l.length ≤ fuel →
      (batchesGo bs fuel l).flatten = l := by
  intro fuel
  induction fuel with
  | zero =>
    intro l hl
    match l, hl with
    | [], _ => rfl
  | succ fuel ih =>
    intro l hl
    match l with
    | [] => rfl
    | a :: t =>
      rw [show batchesGo bs (fuel + 1) (a :: t) =
        (a :: t).take bs :: batchesGo bs fuel ((a :: t).drop bs) from rfl]
      rw [List.flatten_cons]
      rw [ih ((a :: t).drop bs)
        (by simp only [List.length_drop, List.length_cons] at hl ⊢; omega)]
      exact List.take_append_drop bs (a :: t)

theorem toBatches_flatten (bs : ℕ) (hbs : 0 < bs)
    (l : List (ℕ × AlignWhisper.DialogueSeg)) :
    (toBatches bs l).flatten = l :=
  batchesGo_flatten bs hbs l.length l (le_refl _)

theorem processSeg_text (words : List AlignWhisper.Word) (nW : ℕ) (m : ℕ → LlmEntry)
    (lastW : ℕ) (p : ℕ × AlignWhisper.DialogueSeg) :
    (processSeg words nW m lastW p).1.text = p.2.text ∧
    (processSeg words nW m lastW p).1.speaker = p.2.speaker ∧
    (processSeg words nW m lastW p).1.translation = p.2.translation := by
  unfold processSeg
  cases m p.1 with
  | nullE => exact ⟨rfl, rfl, rfl⟩
  | badE => exact ⟨rfl, rfl, rfl⟩
  | okE ws we =>
    dsimp only
    split
    · exact ⟨rfl, rfl, rfl⟩
    · exact ⟨rfl, rfl, rfl⟩

theorem processBatch_fold_texts (words : List AlignWhisper.Word) (nW : ℕ)
    (m : ℕ → LlmEntry) :
    ∀ (batch : List (ℕ × AlignWhisper.DialogueSeg)) (init : List OutSeg) (c : ℕ),
      (batch.foldl
        (fun (acc : List OutSeg × ℕ) p =>
          let r := processSeg words nW m acc.2 p
          (acc.1 ++ [r.1], r.2)) (init, c)).1.map (·.text) =
      init.map (·.text) ++ batch.map (·.2.text) := by
  intro batch
  induction batch with
  | nil => intro init c; simp
  | cons p t ih =>
    intro init c
    simp only [List.foldl_cons]
    rw [ih]
    simp [(processSeg_text words nW m c p).1]

theorem processBatch_texts (words : List AlignWhisper.Word) (nW nd : ℕ) (resp : LlmResp)
    (cursor : ℕ) (batch : List (ℕ × AlignWhisper.DialogueSeg)) :
    (processBatch words nW nd resp cursor batch).1.map (·.text) =
      batch.map (·.2.text) := by
  cases resp with
  | apiError => simp [processBatch, unmatched_seg]
  | parseError => simp [processBatch, unmatched_seg]
  | ok m =>
    unfold processBatch
    dsimp only
    rw [processBatch_fold_texts]
    simp

theorem batchLoop_texts (words : List AlignWhisper.Word) (nW nd : ℕ)
    (resp : ℕ → LlmResp) :
    ∀ (batches : List (List (ℕ × AlignWhisper.DialogueSeg))) (bn cur : ℕ),
      (batchLoop words nW nd resp bn cur batches).map (·.text) =
        batches.flatten.map (·.2.text) := by
  intro batches
  induction batches with
  | nil => intro bn cur; rfl
  | cons b rest ih =>
    intro bn cur
    rw [batchLoop]
    simp only [List.map_append, List.flatten_cons]
    rw [processBatch_texts, ih]

theorem llmInterpGo_length :
    ∀ (fuel : ℕ) (t : Option ℚ) (l : List OutSeg),
      (llmInterpGo fuel t l).length = l.length := by
  intro fuel
  induction fuel with
  | zero => intro t l; rfl
  | succ fuel ih =>
    intro t l
    match l with
    | [] => rfl
    | r :: rs =>
      rw [llmInterpGo]
      have hsplit := List.takeWhile_append_dropWhile (fun s => !s.matched) rs
      have hlen : (rs.takeWhile (fun s => !s.matched)).length +
          (rs.dropWhile (fun s => !s.matched)).length = rs.length := by
        conv_rhs => rw [← hsplit]
        rw [List.length_append]
      split
      · simp [ih]
      · dsimp only
        split
        · simp only [List.length_append, ih, List.length_cons]
          omega
        · simp only [List.length_append, llmAssign_length, ih, List.length_cons]
          omega

theorem llmInterpGo_texts :
    ∀ (fuel : ℕ) (t : Option ℚ) (l : List OutSeg),
      (llmInterpGo fuel t l).map (·.text) = l.map (·.text) := by
  intro fuel
  induction fuel with
  | zero => intro t l; rfl
  | succ fuel ih =>
    intro t l
    match l with
    | [] => rfl
    | r :: rs =>
      rw [llmInterpGo]
      have hsplit : rs.takeWhile (fun s => !s.matched) ++
          rs.dropWhile (fun s => !s.matched) = rs :=
        List.takeWhile_append_dropWhile (fun s => !s.matched) rs
      have hassign : ∀ (prevT nextT : Option ℚ) (rl : ℕ) (k0 : ℕ) (xs : List OutSeg),
          (llmAssign prevT nextT rl k0 xs).map (·.text) = xs.map (·.text) := by
        intro prevT nextT rl k0 xs
        induction xs generalizing k0 with
        | nil => rfl
        | cons x xt ihx => simp [llmAssign, ihx]
      have hmapsplit : rs.map (fun x => x.text) =
          (rs.takeWhile (fun s => !s.matched)).map (fun x => x.text) ++
          (rs.dropWhile (fun s => !s.matched)).map (fun x => x.text) := by
        conv_lhs => rw [← hsplit]
        rw [List.map_append]
      split
      · simp [ih]
      · dsimp only
        split
        · simp only [List.map_append, ih, List.map_cons, List.cons_append]
          rw [hmapsplit]
        · simp only [List.map_append, hassign, ih, List.map_cons, List.cons_append]
          rw [hmapsplit]

end LlmAlign

namespace AlignWhisper

theorem interp_text (results : List AlignedSegment) (k : ℕ) :
    ((interpolate_unmatched results).get? k).map (·.text) =
      (results.get? k).map (·.text) := by
  rcases interpGo_pres results.length 0 results k with ⟨h1, h2⟩ | ⟨a, b, ha, hb, hrest⟩
  · unfold interpolate_unmatched
    rw [h1, h2]
  · unfold interpolate_unmatched
    rw [ha, hb]
    simp [hrest.1]

theorem align_length (dialogue : List DialogueSeg) (words : List Word) :
    (align dialogue words).length = dialogue.length := by
  unfold align interpolate_unmatched
  rw [interpGo_length, pass2_length, pass1Go_length]

theorem align_text (dialogue : List DialogueSeg) (words : List Word) (k : ℕ) :
    ((align dialogue words).get? k).map (·.text) = (dialogue.get? k).map (·.text) := by
  unfold align
  rw [interp_text, pass2_text, pass1Go_text]

end AlignWhisper

open AlignWhisper LlmAlign in
/-- Claim C8: both alignment backends return exactly one output line per
input reference line, in input order (witnessed by the per-index `text`
fields), including empty-normalization lines and lines unmatched in every
pass.  For the LLM backend this holds for every collaborator behaviour
(`resp`) and every positive batch size; a non-empty token stream is a
structural precondition (with zero tokens the script aborts before aligning,
per the spec's UnrecoverableInput). -/
theorem claim_C8 (dialogue : List DialogueSeg) (words : List Word)
    (resp : ℕ → LlmResp) (batch_size window : ℕ) :
    ((align dialogue words).length = dialogue.length ∧
     (align dialogue words).map (·.text) = dialogue.map (·.text)) ∧
    (words ≠ [] → 0 < batch_size →
      (align_with_llm words dialogue resp batch_size window).length = dialogue.length ∧
      (align_with_llm words dialogue resp batch_size window).map (·.text) =
        dialogue.map (·.text)) := by
  constructor
  · refine ⟨align_length dialogue words, ?_⟩
    apply List.ext_get?
    intro n
    rw [List.get?_map, List.get?_map, align_text]
  · intro _ hbs
    have htexts : (align_with_llm words dialogue resp batch_size window).map (·.text) =
        dialogue.map (·.text) := by
      unfold align_with_llm LlmAlign.interpolate_unmatched
      dsimp only
      rw [LlmAlign.llmInterpGo_texts, batchLoop_texts, toBatches_flatten _ hbs]
      have hzip : ((List.range dialogue.length).zip dialogue).map Prod.snd = dialogue :=
        List.map_snd_zip _ _ (by rw [List.length_range])
      calc (((List.range dialogue.length).zip dialogue).map fun x => x.2.text)
          = (((List.range dialogue.length).zip dialogue).map Prod.snd).map
              (fun x => x.text) := by rw [List.map_map]; rfl
        _ = dialogue.map (·.text) := by rw [hzip]
    refine ⟨?_, htexts⟩
    have := congrArg List.length htexts
    simpa using this

open AlignWhisper LlmAlign in
/-- Witness for C8 on the spec's end-to-end example (two reference lines,
five tokens), with an LLM collaborator that matches both lines. -/
theorem claim_C8_witness :
    (align [{ text := "hello there" }, { text := "how are you" }]
      [⟨"hello", "hello", 0, 1/2⟩, ⟨"there", "there", 1/2, 1⟩,
       ⟨"how", "how", 3, 33/10⟩, ⟨"are", "are", 33/10, 36/10⟩,
       ⟨"you", "you", 36/10, 4⟩]).length = 2 ∧
    (align_with_llm
      [⟨"hello", "hello", 0, 1/2⟩, ⟨"there", "there", 1/2, 1⟩,
       ⟨"how", "how", 3, 33/10⟩, ⟨"are", "are", 33/10, 36/10⟩,
       ⟨"you", "you", 36/10, 4⟩]
      [{ text := "hello there" }, { text := "how are you" }]
      (fun _ => .ok fun i => if i = 0 then .okE 0 1 else .okE 2 4) 10 400).length = 2 := by
  have h := claim_C8 [{ text := "hello there" }, { text := "how are you" }]
    [⟨"hello", "hello", 0, 1/2⟩, ⟨"there", "there", 1/2, 1⟩,
     ⟨"how", "how", 3, 33/10⟩, ⟨"are", "are", 33/10, 36/10⟩,
     ⟨"you", "you", 36/10, 4⟩]
    (fun _ => .ok fun i => if i = 0 then .okE 0 1 else .okE 2 4) 10 400
  constructor
  · rw [h.1.1]
    rfl
  · rw [(h.2 (List.cons_ne_nil _ _) (by decide)).1]
    rfl

namespace AlignWhisper

theorem foldl_pass2Step_preserves_matched (words : List Word) (r : AlignedSegment)
    (hm : r.matched = true) :
    ∀ (js : List ℕ) (results : List AlignedSegment) (k : ℕ),
      results.get? k = some r →
      (js.foldl (pass2Step words) results).get? k = some r := by
  intro js
  induction js with
  | nil => intro results k h; exact h
  | cons j js ih =>
    intro results k h
    simp only [List.foldl_cons]
    apply ih
    rcases pass2Step_shape words results j with hstep | ⟨ri, hget, hri, _, _, _, _, hstep⟩
    · rw [hstep]; exact h
    · rw [hstep]
      by_cases hjk : j = k
      · subst hjk
        rw [h] at hget
        cases hget
        rw [hm] at hri
        cases hri
      · rw [List.get?_set_ne _ _ hjk]
        exact h

theorem pass2_preserves_matched (words : List Word) (results : List AlignedSegment)
    (k : ℕ) (r : AlignedSegment) (h : results.get? k = some r) (hm : r.matched = true) :
    (pass2 words results).get? k = some r :=
  foldl_pass2Step_preserves_matched words r hm (List.range results.length) results k h

theorem foldl_pass2Step_shape (words : List Word) (P : List AlignedSegment) :
    ∀ (js : List ℕ) (results : List AlignedSegment),
      (∀ k, results.get? k = P.get? k ∨
        ∃ p q', P.get? k = some p ∧ p.matched = false ∧
          results.get? k = some q' ∧ q'.matched = true) →
      ∀ k, (js.foldl (pass2Step words) results).get? k = P.get? k ∨
        ∃ p q', P.get? k = some p ∧ p.matched = false ∧
          (js.foldl (pass2Step words) results).get? k = some q' ∧ q'.matched = true := by
  intro js
  induction js with
  | nil => intro results hinv k; exact hinv k
  | cons j js ih =>
    intro results hinv k
    simp only [List.foldl_cons]
    apply ih
    intro k'
    rcases pass2Step_shape words results j with hstep | ⟨ri, hget, hri, _, _, _, _, hstep⟩
    · rw [hstep]; exact hinv k'
    · rw [hstep]
      by_cases hjk : j = k'
      · subst hjk
        rcases hinv j with heq | ⟨p, q', hp, hpm, hq, hqm⟩
        · right
          refine ⟨ri, _, by rw [← heq, hget], hri,
            List.get?_set_eq_of_lt _ (List.get?_eq_some.mp hget).1, rfl⟩
        · rw [hget] at hq
          cases hq
          rw [hqm] at hri
          cases hri
      · rw [List.get?_set_ne _ _ hjk]
        exact hinv k'

theorem pass2_shape_entry (words : List Word) (P : List AlignedSegment) (k : ℕ)
    (q : AlignedSegment) (h : (pass2 words P).get? k = some q) :
    P.get? k = some q ∨
      ∃ p, P.get? k = some p ∧ p.matched = false ∧ q.matched = true := by
  rcases foldl_pass2Step_shape words P (List.range P.length) P
    (fun k' => Or.inl rfl) k with heq | ⟨p, q', hp, hpm, hq, hqm⟩
  · exact Or.inl (by rw [← heq]; exact h)
  · right
    unfold pass2 at h
    rw [h] at hq
    cases hq
    exact ⟨p, hp, hpm, hqm⟩

end AlignWhisper

open AlignWhisper in
/-- Claim C10 (frame property): a line whose matched flag is true after
pass 1 is not modified by pass 2 nor by the Interpolator (all its fields,
start, stop, score and token span included, are unchanged in the final
`align` output); pass 2 only ever changes a line from unmatched to matched;
and the Interpolator only writes the start/stop of lines still unmatched
after pass 2, leaving text, speaker, translation, matched, score and the
token-span fields untouched. -/
theorem claim_C10 (dialogue : List DialogueSeg) (words : List Word) (k : ℕ) :
    (∀ r, (pass1Go words 0 dialogue).get? k = some r → r.matched = true →
      (pass2 words (pass1Go words 0 dialogue)).get? k = some r ∧
      (align dialogue words).get? k = some r) ∧
    (∀ q, (pass2 words (pass1Go words 0 dialogue)).get? k = some q →
      (pass1Go words 0 dialogue).get? k = some q ∨
      ∃ p, (pass1Go words 0 dialogue).get? k = some p ∧
        p.matched = false ∧ q.matched = true) ∧
    (∀ q, (pass2 words (pass1Go words 0 dialogue)).get? k = some q →
      q.matched = false →
      ∃ b, (align dialogue words).get? k = some b ∧ b.text = q.text ∧
        b.speaker = q.speaker ∧ b.translation = q.translation ∧ b.matched = false ∧
        b.score = q.score ∧ b.word_start_idx = q.word_start_idx ∧
        b.word_end_idx = q.word_end_idx) := by
  refine ⟨?_, ?_, ?_⟩
  · intro r hget hm
    have hq : (pass2 words (pass1Go words 0 dialogue)).get? k = some r :=
      pass2_preserves_matched words _ k r hget hm
    refine ⟨hq, ?_⟩
    unfold align
    rcases interpGo_pres (pass2 words (pass1Go words 0 dialogue)).length 0
      (pass2 words (pass1Go words 0 dialogue)) k with ⟨h1, h2⟩ | ⟨a, b, ha, hb, hrest⟩
    · rw [hq] at h2; cases h2
    · rw [hq] at ha
      cases ha
      unfold interpolate_unmatched
      rw [hb, hrest.2.2.2.2.2.2.2 hm]
  · intro q hget
    exact pass2_shape_entry words _ k q hget
  · intro q hget hqm
    unfold align
    rcases interpGo_pres (pass2 words (pass1Go words 0 dialogue)).length 0
      (pass2 words (pass1Go words 0 dialogue)) k with ⟨h1, h2⟩ | ⟨a, b, ha, hb, hrest⟩
    · rw [hget] at h2; cases h2
    · rw [hget] at ha
      cases ha
      exact ⟨b, hb, hrest.1, hrest.2.1, hrest.2.2.1,
        by rw [hrest.2.2.2.1]; exact hqm, hrest.2.2.2.2.1,
        hrest.2.2.2.2.2.1, hrest.2.2.2.2.2.2.1⟩

set_option maxRecDepth 400000 in
open AlignWhisper in
/-- Witness for C10 on the spec's end-to-end example: the first line is
matched in pass 1 with span [0,1] and times [0,1] and survives pass 2 and
interpolation unchanged. -/
theorem claim_C10_witness :
    (pass2
      [⟨"hello", "hello", 0, 1/2⟩, ⟨"there", "there", 1/2, 1⟩,
       ⟨"how", "how", 3, 33/10⟩, ⟨"are", "are", 33/10, 36/10⟩, ⟨"you", "you", 36/10, 4⟩]
      (pass1Go
        [⟨"hello", "hello", 0, 1/2⟩, ⟨"there", "there", 1/2, 1⟩,
         ⟨"how", "how", 3, 33/10⟩, ⟨"are", "are", 33/10, 36/10⟩, ⟨"you", "you", 36/10, 4⟩]
        0 [{ text := "hello there" }, { text := "how are you" }])).get? 0 =
      some { text := "hello there", speaker := "", translation := "", start := 0, stop := 1,
             matched := true, score := 1, word_start_idx := 0, word_end_idx := 1 } ∧
    (align [{ text := "hello there" }, { text := "how are you" }]
      [⟨"hello", "hello", 0, 1/2⟩, ⟨"there", "there", 1/2, 1⟩,
       ⟨"how", "how", 3, 33/10⟩, ⟨"are", "are", 33/10, 36/10⟩,
       ⟨"you", "you", 36/10, 4⟩]).get? 0 =
      some { text := "hello there", speaker := "", translation := "", start := 0, stop := 1,
             matched := true, score := 1, word_start_idx := 0, word_end_idx := 1 } := by
  exact (claim_C10 [{ text := "hello there" }, { text := "how are you" }]
    [⟨"hello", "hello", 0, 1/2⟩, ⟨"there", "there", 1/2, 1⟩,
     ⟨"how", "how", 3, 33/10⟩, ⟨"are", "are", 33/10, 36/10⟩, ⟨"you", "you", 36/10, 4⟩]
    0).1
    { text := "hello there", speaker := "", translation := "", start := 0, stop := 1,
      matched := true, score := 1, word_start_idx := 0, word_end_idx := 1 }
    (by with_unfolding_all decide) rfl

/-! ## Lemmas about the best-match search and the two passes (claims C2, C1) -/

namespace AlignWhisper

/-- The score of candidate position `j` for reference words `ref`. -/
def scoreAt (ref : List String) (words : List Word) (j : ℕ) : ℚ :=
  word_match_score ref (((words.drop j).take ref.length).map (·.text))

theorem bmirGo_acc_le (ref : List String) (words : List Word) :
    ∀ (js : List ℕ) (acc : ℚ × ℕ), acc.1 ≤ (bmirGo ref words js acc).1 := by
  intro js
  induction js with
  | nil => intro acc; exact le_refl _
  | cons j js ih =>
    intro acc
    rw [bmirGo]
    split
    · exact le_refl _
    · refine le_trans ?_ (ih _)
      split
      · rename_i h
        exact le_of_lt h
      · exact le_refl _

theorem bmirGo_shape (ref : List String) (words : List Word) :
    ∀ (js : List ℕ) (acc : ℚ × ℕ),
      bmirGo ref words js acc = acc ∨
      ∃ j ∈ js, j + ref.length ≤ words.length ∧
        bmirGo ref words js acc = (scoreAt ref words j, j) ∧ acc.1 < scoreAt ref words j := by
  intro js
  induction js with
  | nil => intro acc; exact Or.inl rfl
  | cons j js ih =>
    intro acc
    rw [bmirGo]
    dsimp only
    split
    · exact Or.inl rfl
    · rename_i hlen
      split
      · rename_i hsc
        rcases ih (scoreAt ref words j, j) with heq | ⟨j', hj', hlen', heq, hsc'⟩
        · exact Or.inr ⟨j, by simp, by omega, heq, hsc⟩
        · exact Or.inr ⟨j', by simp [hj'], hlen', heq,
            lt_trans hsc hsc'⟩
      · rename_i hsc
        rcases ih acc with heq | ⟨j', hj', hlen', heq, hsc'⟩
        · exact Or.inl heq
        · exact Or.inr ⟨j', by simp [hj'], hlen', heq, hsc'⟩

theorem bmirGo_is_max (ref : List String) (words : List Word) :
    ∀ (c s : ℕ) (acc : ℚ × ℕ) (j : ℕ), s ≤ j → j < s + c →
      j + ref.length ≤ words.length →
      scoreAt ref words j ≤ (bmirGo ref words (List.range' s c) acc).1 := by
  intro c
  induction c with
  | zero => intro s acc j h1 h2 _; omega
  | succ c ih =>
    intro s acc j h1 h2 hlen
    rw [List.range'_succ, bmirGo]
    split
    · rename_i hbreak
      omega
    · by_cases hjs : j = s
      · subst hjs
        refine le_trans ?_ (bmirGo_acc_le ref words _ _)
        split
        · exact le_refl _
        · rename_i h
          exact le_of_not_lt h
      · exact ih (s + 1) _ j (by omega) (by omega) hlen

theorem best_match_shape (ref : List String) (words : List Word) (s e : ℕ) :
    best_match_in_range ref words s e = (0, s) ∨
    ∃ j, s ≤ j ∧ j < max (s + 1) (e + 1 - ref.length) ∧
      j + ref.length ≤ words.length ∧
      best_match_in_range ref words s e = (scoreAt ref words j, j) ∧
      0 < scoreAt ref words j := by
  unfold best_match_in_range
  rcases bmirGo_shape ref words
    (List.range' s (max (s + 1) (e + 1 - ref.length) - s)) (0, s) with heq | ⟨j, hj, hlen, heq, hsc⟩
  · exact Or.inl heq
  · rcases List.mem_range'_1.mp hj with ⟨h1, h2⟩
    exact Or.inr ⟨j, h1, by omega, hlen, heq, hsc⟩

theorem best_match_start_ge (ref : List String) (words : List Word) (s e : ℕ) :
    s ≤ (best_match_in_range ref words s e).2 := by
  rcases best_match_shape ref words s e with heq | ⟨j, h1, _, _, heq, _⟩
  · rw [heq]
  · rw [heq]; exact h1

theorem best_match_score_nonneg (ref : List String) (words : List Word) (s e : ℕ) :
    0 ≤ (best_match_in_range ref words s e).1 := by
  unfold best_match_in_range
  exact bmirGo_acc_le ref words _ (0, s)

theorem best_match_is_max (ref : List String) (words : List Word) (s e : ℕ) (j : ℕ)
    (h1 : s ≤ j) (h2 : j < max (s + 1) (e + 1 - ref.length))
    (hlen : j + ref.length ≤ words.length) :
    scoreAt ref words j ≤ (best_match_in_range ref words s e).1 := by
  unfold best_match_in_range
  exact bmirGo_is_max ref words (max (s + 1) (e + 1 - ref.length) - s) s (0, s) j h1
    (by omega) hlen

/-- If every candidate of one search range is also a candidate of another,
the first search's best score is bounded by the second's. -/
theorem best_match_le_of_subset (ref : List String) (words : List Word)
    (p ns c e : ℕ)
    (hsub : ∀ j, p ≤ j → j < max (p + 1) (ns + 1 - ref.length) →
      j + ref.length ≤ words.length →
      c ≤ j ∧ j < max (c + 1) (e + 1 - ref.length)) :
    (best_match_in_range ref words p ns).1 ≤ (best_match_in_range ref words c e).1 := by
  rcases best_match_shape ref words p ns with heq | ⟨j, h1, h2, hlen, heq, hsc⟩
  · rw [heq]
    exact best_match_score_nonneg ref words c e
  · rw [heq]
    rcases hsub j h1 h2 hlen with ⟨h3, h4⟩
    exact best_match_is_max ref words c e j h3 h4 hlen

end AlignWhisper

namespace AlignWhisper

/-- Three-way case analysis of one pass-1 body: empty normalization (line
skipped), best score below threshold (unmatched), or commit. -/
theorem p1both_cases (words : List Word) (c : ℕ) (seg : DialogueSeg) :
    ((normalize_text seg.text).length = 0 ∧
      (p1both words c seg).1.matched = false ∧ (p1both words c seg).2 = c) ∨
    ((normalize_text seg.text).length ≠ 0 ∧
      (best_match_in_range (normalize_text seg.text) words c
        (min (c + SEARCH_WINDOW) words.length)).1 < MATCH_THRESHOLD ∧
      (p1both words c seg).1.matched = false ∧ (p1both words c seg).2 = c) ∨
    ((normalize_text seg.text).length ≠ 0 ∧
      MATCH_THRESHOLD ≤ (best_match_in_range (normalize_text seg.text) words c
        (min (c + SEARCH_WINDOW) words.length)).1 ∧
      p1both words c seg =
        ({ text := seg.text, speaker := seg.speaker, translation := seg.translation,
           start := (wordAt words (best_match_in_range (normalize_text seg.text) words c
             (min (c + SEARCH_WINDOW) words.length)).2).start,
           stop := (wordAt words ((best_match_in_range (normalize_text seg.text) words c
             (min (c + SEARCH_WINDOW) words.length)).2 +
               (normalize_text seg.text).length - 1)).stop,
           matched := true,
           score := (best_match_in_range (normalize_text seg.text) words c
             (min (c + SEARCH_WINDOW) words.length)).1,
           word_start_idx := ((best_match_in_range (normalize_text seg.text) words c
             (min (c + SEARCH_WINDOW) words.length)).2 : Int),
           word_end_idx := (((best_match_in_range (normalize_text seg.text) words c
             (min (c + SEARCH_WINDOW) words.length)).2 +
               (normalize_text seg.text).length - 1 : ℕ) : Int) },
         (best_match_in_range (normalize_text seg.text) words c
           (min (c + SEARCH_WINDOW) words.length)).2 + (normalize_text seg.text).length) ∧
      c ≤ (best_match_in_range (normalize_text seg.text) words c
        (min (c + SEARCH_WINDOW) words.length)).2 ∧
      (best_match_in_range (normalize_text seg.text) words c
        (min (c + SEARCH_WINDOW) words.length)).2 +
          (normalize_text seg.text).length ≤ words.length ∧
      (best_match_in_range (normalize_text seg.text) words c
        (min (c + SEARCH_WINDOW) words.length)).2 < c + SEARCH_WINDOW) := by
  by_cases hn : (normalize_text seg.text).length = 0
  · left
    rw [p1both_empty words c seg hn]
    exact ⟨hn, rfl, rfl⟩
  · by_cases hsc : MATCH_THRESHOLD ≤ (best_match_in_range (normalize_text seg.text) words c
        (min (c + SEARCH_WINDOW) words.length)).1
    · right; right
      refine ⟨hn, hsc, p1both_matched words c seg hn hsc, ?_, ?_, ?_⟩
      · exact best_match_start_ge _ _ _ _
      · rcases best_match_shape (normalize_text seg.text) words c
          (min (c + SEARCH_WINDOW) words.length) with heq | ⟨j, h1, h2, hlen, heq, hpos⟩
        · exfalso
          rw [heq] at hsc
          rw [MATCH_THRESHOLD] at hsc
          norm_num at hsc
        · rw [heq]
          exact hlen
      · rcases best_match_shape (normalize_text seg.text) words c
          (min (c + SEARCH_WINDOW) words.length) with heq | ⟨j, h1, h2, hlen, heq, hpos⟩
        · exfalso
          rw [heq] at hsc
          rw [MATCH_THRESHOLD] at hsc
          norm_num at hsc
        · rw [heq]
          have hW : 0 < SEARCH_WINDOW := by rw [SEARCH_WINDOW]; norm_num
          omega
    · right; left
      rw [p1both_unmatched words c seg hn (not_le.mp hsc)]
      exact ⟨hn, not_le.mp hsc, rfl, rfl⟩

theorem p1cursor_zero (words : List Word) (c : ℕ) (ds : List DialogueSeg) :
    p1cursor words c ds 0 = c := by
  cases ds <;> rfl

theorem p1get (words : List Word) :
    ∀ (ds : List DialogueSeg) (c k : ℕ) (sk : DialogueSeg), ds.get? k = some sk →
      (pass1Go words c ds).get? k = some (p1both words (p1cursor words c ds k) sk).1 := by
  intro ds
  induction ds with
  | nil => intro c k sk h; cases h
  | cons seg rest ih =>
    intro c k sk h
    match k with
    | 0 =>
      cases h
      rw [pass1Go_cons]
      rfl
    | k + 1 =>
      rw [pass1Go_cons]
      simpa using ih (p1both words c seg).2 k sk (by simpa using h)

theorem p1cursor_succ_get (words : List Word) :
    ∀ (ds : List DialogueSeg) (c k : ℕ) (sk : DialogueSeg), ds.get? k = some sk →
      p1cursor words c ds (k + 1) =
        (p1both words (p1cursor words c ds k) sk).2 := by
  intro ds
  induction ds with
  | nil => intro c k sk h; cases h
  | cons seg rest ih =>
    intro c k sk h
    match k with
    | 0 =>
      cases h
      show p1cursor words (p1both words c seg).2 rest 0 = _
      simp only [p1cursor_zero]
    | k + 1 =>
      exact ih (p1both words c seg).2 k sk (by simpa using h)

theorem p1step_ge (words : List Word) (c : ℕ) (seg : DialogueSeg) :
    c ≤ (p1both words c seg).2 := by
  rcases p1both_cases words c seg with ⟨_, _, h⟩ | ⟨_, _, _, h⟩ | ⟨hn, _, heq, hge, hlen, _⟩
  · rw [h]
  · rw [h]
  · rw [heq]
    have : 1 ≤ (normalize_text seg.text).length := by omega
    omega

theorem p1cursor_mono (words : List Word) (ds : List DialogueSeg) (c : ℕ) :
    ∀ (k1 k2 : ℕ), k1 ≤ k2 → k2 ≤ ds.length →
      p1cursor words c ds k1 ≤ p1cursor words c ds k2 := by
  intro k1 k2 h hlen
  induction k2 with
  | zero =>
    have : k1 = 0 := by omega
    rw [this]
  | succ k2 ih =>
    by_cases hk : k1 = k2 + 1
    · rw [hk]
    · have hk1 : k1 ≤ k2 := by omega
      have hk2 : k2 < ds.length := by omega
      rcases List.get?_eq_get hk2 with hget
      refine le_trans (ih hk1 (by omega)) ?_
      rw [p1cursor_succ_get words ds c k2 (ds.get ⟨k2, hk2⟩) hget]
      exact p1step_ge words _ _

theorem p1cursor_const (words : List Word) (ds : List DialogueSeg) :
    ∀ (d a : ℕ), a + d ≤ ds.length →
      (∀ j, a ≤ j → j < a + d →
        ∃ sk, ds.get? j = some sk ∧
          (p1both words (p1cursor words 0 ds j) sk).1.matched = false) →
      p1cursor words 0 ds (a + d) = p1cursor words 0 ds a := by
  intro d
  induction d with
  | zero => intro a _ _; rfl
  | succ d ih =>
    intro a hlen hun
    have hj : a + d < ds.length := by omega
    rcases hun (a + d) (by omega) (by omega) with ⟨sk, hget, hm⟩
    have : a + (d + 1) = (a + d) + 1 := by omega
    rw [this, p1cursor_succ_get words ds 0 (a + d) sk hget]
    have hstep : (p1both words (p1cursor words 0 ds (a + d)) sk).2 =
        p1cursor words 0 ds (a + d) := by
      rcases p1both_cases words (p1cursor words 0 ds (a + d)) sk with
        ⟨_, _, h⟩ | ⟨_, _, _, h⟩ | ⟨_, _, heq, _⟩
      · exact h
      · exact h
      · rw [heq] at hm
        simp at hm
    rw [hstep]
    exact ih a (by omega) (fun j h1 h2 => hun j h1 (by omega))

end AlignWhisper

namespace AlignWhisper

/-- Well-formedness of a matched line's committed fields: a real token span
inside the stream, with the start/stop times taken from its end tokens. -/
def spanWf (words : List Word) (r : AlignedSegment) : Prop :=
  ∃ s e : ℕ, r.word_start_idx = (s : Int) ∧ r.word_end_idx = (e : Int) ∧
    s ≤ e ∧ e < words.length ∧
    r.start = (wordAt words s).start ∧ r.stop = (wordAt words e).stop

theorem prevWordEnd_congr (R R' : List AlignedSegment) :
    ∀ (i : ℕ), (∀ j, j < i → R.get? j = R'.get? j) →
      prevWordEnd R i = prevWordEnd R' i := by
  intro i
  induction i with
  | zero => intro _; rfl
  | succ i ih =>
    intro h
    show prevWordEnd R (i + 1) = prevWordEnd R' (i + 1)
    rw [prevWordEnd, prevWordEnd, h i (by omega)]
    cases hr : R'.get? i with
    | none => exact ih (fun j hj => h j (by omega))
    | some r =>
      dsimp only
      split
      · rfl
      · exact ih (fun j hj => h j (by omega))

theorem nextWordStart_congr (R R' : List AlignedSegment) (L i : ℕ)
    (h : ∀ j, i < j → R.get? j = R'.get? j) :
    nextWordStart R L i = nextWordStart R' L i := by
  unfold nextWordStart
  have hdrop : R.drop (i + 1) = R'.drop (i + 1) := by
    apply List.ext_get?
    intro m
    rw [List.get?_drop, List.get?_drop]
    exact h (i + 1 + m) (by omega)
  rw [hdrop]

theorem prevWordEnd_pass1 (words : List Word) (ds : List DialogueSeg) :
    ∀ (i : ℕ), i ≤ ds.length →
      prevWordEnd (pass1Go words 0 ds) i = p1cursor words 0 ds i := by
  intro i
  induction i with
  | zero =>
    intro _
    rw [p1cursor_zero]
    rfl
  | succ i ih =>
    intro hlen
    have hi : i < ds.length := by omega
    rcases List.get?_eq_get hi with hget
    set sk := ds.get ⟨i, hi⟩ with hsk
    have hgetP := p1get words ds 0 i sk hget
    show prevWordEnd (pass1Go words 0 ds) (i + 1) = _
    rw [prevWordEnd, hgetP]
    dsimp only
    rw [p1cursor_succ_get words ds 0 i sk hget]
    rcases p1both_cases words (p1cursor words 0 ds i) sk with
      ⟨_, hm, hc⟩ | ⟨_, _, hm, hc⟩ | ⟨hn, _, heq, _, _, _⟩
    · rw [if_neg (by rw [hm]; simp), hc]
      exact ih (by omega)
    · rw [if_neg (by rw [hm]; simp), hc]
      exact ih (by omega)
    · have hmt : (p1both words (p1cursor words 0 ds i) sk).1.matched = true := by
        rw [heq]
      rw [if_pos hmt]
      simp only [heq]
      omega

/-- First-matched characterization of the `nextWordStart` scan. -/
theorem nwsGo_spec (L : ℕ) :
    ∀ (l : List AlignedSegment),
      ((∀ r ∈ l, r.matched = false) ∧ nwsGo L l = L) ∨
      (∃ m r, l.get? m = some r ∧ r.matched = true ∧
        (∀ j r', j < m → l.get? j = some r' → r'.matched = false) ∧
        nwsGo L l = r.word_start_idx.toNat) := by
  intro l
  induction l with
  | nil => exact Or.inl ⟨by simp, rfl⟩
  | cons r rs ih =>
    by_cases hm : r.matched = true
    · right
      exact ⟨0, r, rfl, hm, by intro j r' hj _; omega, by rw [nwsGo, if_pos hm]⟩
    · rcases ih with ⟨hall, heq⟩ | ⟨m, r', hget, hm', hbefore, heq⟩
      · left
        refine ⟨?_, by rw [nwsGo, if_neg hm]; exact heq⟩
        intro x hx
        rcases List.mem_cons.mp hx with h0 | h1
        · rw [h0]; simpa using hm
        · exact hall x h1
      · right
        refine ⟨m + 1, r', by simpa using hget, hm', ?_,
          by rw [nwsGo, if_neg hm]; exact heq⟩
        intro j r'' hj hget''
        match j with
        | 0 =>
          cases hget''
          simpa using hm
        | j + 1 =>
          exact hbefore j r'' (by omega) (by simpa using hget'')

theorem nextWordStart_spec (R : List AlignedSegment) (L i : ℕ) :
    ((∀ j r, i < j → R.get? j = some r → r.matched = false) ∧
      nextWordStart R L i = L) ∨
    (∃ m r, i < m ∧ R.get? m = some r ∧ r.matched = true ∧
      (∀ j r', i < j → j < m → R.get? j = some r' → r'.matched = false) ∧
      nextWordStart R L i = r.word_start_idx.toNat) := by
  unfold nextWordStart
  rcases nwsGo_spec L (R.drop (i + 1)) with ⟨hall, heq⟩ | ⟨m, r, hget, hm, hbefore, heq⟩
  · left
    refine ⟨?_, heq⟩
    intro j r hj hget
    apply hall
    have : (R.drop (i + 1)).get? (j - (i + 1)) = some r := by
      rw [List.get?_drop]
      rw [show i + 1 + (j - (i + 1)) = j by omega]
      exact hget
    exact List.get?_mem this
  · right
    rw [List.get?_drop] at hget
    refine ⟨i + 1 + m, r, by omega, hget, hm, ?_, heq⟩
    intro j r' h1 h2 hget'
    apply hbefore (j - (i + 1)) r' (by omega)
    rw [List.get?_drop]
    rw [show i + 1 + (j - (i + 1)) = j by omega]
    exact hget'

/-- First-matched-backwards characterization of the `prevWordEnd` scan. -/
theorem prevWordEnd_spec (R : List AlignedSegment) :
    ∀ (i : ℕ),
      ((∀ j r, j < i → R.get? j = some r → r.matched = false) ∧
        prevWordEnd R i = 0) ∨
      (∃ k0 r0, k0 < i ∧ R.get? k0 = some r0 ∧ r0.matched = true ∧
        (∀ j r', k0 < j → j < i → R.get? j = some r' → r'.matched = false) ∧
        prevWordEnd R i = (r0.word_end_idx + 1).toNat) := by
  intro i
  induction i with
  | zero => exact Or.inl ⟨by intro j r h; omega, rfl⟩
  | succ i ih =>
    cases hget : R.get? i with
    | none =>
      rcases ih with ⟨hall, heq⟩ | ⟨k0, r0, hk0, hget0, hm0, hbet, heq⟩
      · left
        refine ⟨?_, by rw [prevWordEnd, hget]; exact heq⟩
        intro j r hj hg
        by_cases hji : j = i
        · subst hji; rw [hget] at hg; cases hg
        · exact hall j r (by omega) hg
      · right
        refine ⟨k0, r0, by omega, hget0, hm0, ?_,
          by rw [prevWordEnd, hget]; exact heq⟩
        intro j r' h1 h2 hg
        by_cases hji : j = i
        · subst hji; rw [hget] at hg; cases hg
        · exact hbet j r' h1 (by omega) hg
    | some r =>
      by_cases hm : r.matched = true
      · right
        refine ⟨i, r, by omega, hget, hm, by intro j r' h1 h2 _; omega, ?_⟩
        rw [prevWordEnd, hget]
        dsimp only
        rw [if_pos hm]
      · rcases ih with ⟨hall, heq⟩ | ⟨k0, r0, hk0, hget0, hm0, hbet, heq⟩
        · left
          refine ⟨?_, by rw [prevWordEnd, hget]; dsimp only; rw [if_neg hm]; exact heq⟩
          intro j r' hj hg
          by_cases hji : j = i
          · subst hji; rw [hget] at hg; cases hg; simpa using hm
          · exact hall j r' (by omega) hg
        · right
          refine ⟨k0, r0, by omega, hget0, hm0, ?_,
            by rw [prevWordEnd, hget]; dsimp only; rw [if_neg hm]; exact heq⟩
          intro j r' h1 h2 hg
          by_cases hji : j = i
          · subst hji; rw [hget] at hg; cases hg; simpa using hm
          · exact hbet j r' h1 (by omega) hg

end AlignWhisper

namespace AlignWhisper

/-- Facts about a line matched in pass 1: its committed span comes from the
windowed best-match search at its cursor, lies inside the stream, starts at
or after the cursor and before `cursor + SEARCH_WINDOW`, and the cursor
advances to one past the span. -/
theorem pass1_matched_fact (words : List Word) (ds : List DialogueSeg) (k : ℕ)
    (sk : DialogueSeg) (hget : ds.get? k = some sk)
    (hm : (p1both words (p1cursor words 0 ds k) sk).1.matched = true) :
    (normalize_text sk.text).length ≠ 0 ∧
    (p1both words (p1cursor words 0 ds k) sk).1.word_start_idx =
      ((best_match_in_range (normalize_text sk.text) words (p1cursor words 0 ds k)
        (min (p1cursor words 0 ds k + SEARCH_WINDOW) words.length)).2 : Int) ∧
    (p1both words (p1cursor words 0 ds k) sk).1.word_end_idx =
      (((best_match_in_range (normalize_text sk.text) words (p1cursor words 0 ds k)
        (min (p1cursor words 0 ds k + SEARCH_WINDOW) words.length)).2 +
          (normalize_text sk.text).length - 1 : ℕ) : Int) ∧
    p1cursor words 0 ds k ≤ (best_match_in_range (normalize_text sk.text) words
      (p1cursor words 0 ds k)
      (min (p1cursor words 0 ds k + SEARCH_WINDOW) words.length)).2 ∧
    (best_match_in_range (normalize_text sk.text) words (p1cursor words 0 ds k)
      (min (p1cursor words 0 ds k + SEARCH_WINDOW) words.length)).2 +
        (normalize_text sk.text).length ≤ words.length ∧
    (best_match_in_range (normalize_text sk.text) words (p1cursor words 0 ds k)
      (min (p1cursor words 0 ds k + SEARCH_WINDOW) words.length)).2 <
        p1cursor words 0 ds k + SEARCH_WINDOW ∧
    p1cursor words 0 ds (k + 1) =
      (best_match_in_range (normalize_text sk.text) words (p1cursor words 0 ds k)
        (min (p1cursor words 0 ds k + SEARCH_WINDOW) words.length)).2 +
        (normalize_text sk.text).length ∧
    (p1both words (p1cursor words 0 ds k) sk).1.start =
      (wordAt words (best_match_in_range (normalize_text sk.text) words
        (p1cursor words 0 ds k)
        (min (p1cursor words 0 ds k + SEARCH_WINDOW) words.length)).2).start ∧
    (p1both words (p1cursor words 0 ds k) sk).1.stop =
      (wordAt words ((best_match_in_range (normalize_text sk.text) words
        (p1cursor words 0 ds k)
        (min (p1cursor words 0 ds k + SEARCH_WINDOW) words.length)).2 +
          (normalize_text sk.text).length - 1)).stop := by
  rcases p1both_cases words (p1cursor words 0 ds k) sk with
    ⟨_, hm', _⟩ | ⟨_, _, hm', _⟩ | ⟨hn, hsc, heq, hge, hlen, hwin⟩
  · rw [hm'] at hm; cases hm
  · rw [hm'] at hm; cases hm
  · refine ⟨hn, ?_, ?_, hge, hlen, hwin, ?_, ?_, ?_⟩ <;>
      simp only [heq, p1cursor_succ_get words ds 0 k sk hget]

/-- A line left unmatched by pass 1 (with non-empty normalization) had best
windowed score strictly below the threshold. -/
theorem pass1_unmatched_fact (words : List Word) (ds : List DialogueSeg) (k : ℕ)
    (sk : DialogueSeg) (hm : (p1both words (p1cursor words 0 ds k) sk).1.matched = false)
    (hn : (normalize_text sk.text).length ≠ 0) :
    (best_match_in_range (normalize_text sk.text) words (p1cursor words 0 ds k)
      (min (p1cursor words 0 ds k + SEARCH_WINDOW) words.length)).1 <
        MATCH_THRESHOLD := by
  rcases p1both_cases words (p1cursor words 0 ds k) sk with
    ⟨hn', _, _⟩ | ⟨_, hsc, _, _⟩ | ⟨_, _, heq, _⟩
  · exact absurd hn' hn
  · exact hsc
  · rw [heq] at hm; cases hm

theorem pass1_spanWf (words : List Word) (ds : List DialogueSeg) (k : ℕ)
    (r : AlignedSegment) (hget : (pass1Go words 0 ds).get? k = some r)
    (hm : r.matched = true) : spanWf words r := by
  have hk : k < ds.length := by
    have := (List.get?_eq_some.mp hget).1
    rwa [pass1Go_length] at this
  rcases List.get?_eq_get hk with hgetd
  have hP := p1get words ds 0 k (ds.get ⟨k, hk⟩) hgetd
  rw [hget] at hP
  cases hP
  have hf := pass1_matched_fact words ds k (ds.get ⟨k, hk⟩) hgetd hm
  refine ⟨(best_match_in_range (normalize_text (ds.get ⟨k, hk⟩).text) words
      (p1cursor words 0 ds k)
      (min (p1cursor words 0 ds k + SEARCH_WINDOW) words.length)).2,
    (best_match_in_range (normalize_text (ds.get ⟨k, hk⟩).text) words
      (p1cursor words 0 ds k)
      (min (p1cursor words 0 ds k + SEARCH_WINDOW) words.length)).2 +
      (normalize_text (ds.get ⟨k, hk⟩).text).length - 1,
    hf.2.1, hf.2.2.1, by have := hf.1; omega, by have := hf.2.2.2.2.1; have := hf.1; omega,
    hf.2.2.2.2.2.2.2.1, hf.2.2.2.2.2.2.2.2⟩

theorem pass1_spans_mono (words : List Word) (ds : List DialogueSeg)
    (k1 k2 : ℕ) (r1 r2 : AlignedSegment) (h12 : k1 < k2)
    (hget1 : (pass1Go words 0 ds).get? k1 = some r1)
    (hget2 : (pass1Go words 0 ds).get? k2 = some r2)
    (hm1 : r1.matched = true) (hm2 : r2.matched = true) :
    r1.word_end_idx < r2.word_start_idx := by
  have hk1 : k1 < ds.length := by
    have := (List.get?_eq_some.mp hget1).1
    rwa [pass1Go_length] at this
  have hk2 : k2 < ds.length := by
    have := (List.get?_eq_some.mp hget2).1
    rwa [pass1Go_length] at this
  rcases List.get?_eq_get hk1 with hgetd1
  rcases List.get?_eq_get hk2 with hgetd2
  have hP1 := p1get words ds 0 k1 (ds.get ⟨k1, hk1⟩) hgetd1
  have hP2 := p1get words ds 0 k2 (ds.get ⟨k2, hk2⟩) hgetd2
  rw [hget1] at hP1
  rw [hget2] at hP2
  cases hP1
  cases hP2
  have hf1 := pass1_matched_fact words ds k1 (ds.get ⟨k1, hk1⟩) hgetd1 hm1
  have hf2 := pass1_matched_fact words ds k2 (ds.get ⟨k2, hk2⟩) hgetd2 hm2
  have hcur : p1cursor words 0 ds (k1 + 1) ≤ p1cursor words 0 ds k2 :=
    p1cursor_mono words ds 0 (k1 + 1) k2 (by omega) (by omega)
  rw [hf1.2.2.1, hf2.2.1]
  have h1 := hf1.2.2.2.2.2.2.1
  have h2 := hf2.2.2.2.1
  have hn1 := hf1.1
  omega

end AlignWhisper

namespace AlignWhisper

/-- Position `k` holds a matched line in `P`. -/
def matchedAtP (P : List AlignedSegment) (k : ℕ) : Prop :=
  ∃ r, P.get? k = some r ∧ r.matched = true

/-- The pass-2 loop invariant over the pass-1 output `P`, after the
iterations for indices `< i` have run, producing `R`:
positions `≥ i` are untouched; positions `< i` that are matched in `P` or
have a matched `P`-line after them are untouched (pass 2 can only newly match
lines in the suffix after the last pass-1 match); every matched line has a
well-formed committed span; and matched spans are strictly increasing. -/
def InvC2 (words : List Word) (P : List AlignedSegment) (i : ℕ)
    (R : List AlignedSegment) : Prop :=
  (∀ k, i ≤ k → R.get? k = P.get? k) ∧
  (∀ k, k < i → (matchedAtP P k ∨ ∃ m, k < m ∧ matchedAtP P m) →
    R.get? k = P.get? k) ∧
  (∀ k r, R.get? k = some r → r.matched = true → spanWf words r) ∧
  (∀ k1 k2 r1 r2, k1 < k2 → R.get? k1 = some r1 → R.get? k2 = some r2 →
    r1.matched = true → r2.matched = true → r1.word_end_idx < r2.word_start_idx)

theorem invC2_base (words : List Word) (ds : List DialogueSeg) :
    InvC2 words (pass1Go words 0 ds) 0 (pass1Go words 0 ds) :=
  ⟨fun _ _ => rfl, fun k hk => by omega,
   fun k r hget hm => pass1_spanWf words ds k r hget hm,
   fun k1 k2 r1 r2 h12 h1 h2 hm1 hm2 =>
     pass1_spans_mono words ds k1 k2 r1 r2 h12 h1 h2 hm1 hm2⟩

theorem invC2_step (words : List Word) (ds : List DialogueSeg) (i : ℕ)
    (R : List AlignedSegment)
    (hinv : InvC2 words (pass1Go words 0 ds) i R) :
    InvC2 words (pass1Go words 0 ds) (i + 1) (pass2Step words R i) := by
  obtain ⟨I2, I3, I5, I6⟩ := hinv
  rcases pass2Step_shape words R i with hstep | ⟨ri, hget, hri, hn, hroom, hsc, hbound, hstep⟩
  · rw [hstep]
    refine ⟨fun k hk => I2 k (by omega), ?_, I5, I6⟩
    intro k hk hcond
    by_cases hki : k < i
    · exact I3 k hki hcond
    · have : k = i := by omega
      subst this
      exact I2 k le_rfl
  · -- commit case: line i gets a new match
    have hPi : (pass1Go words 0 ds).get? i = some ri := by
      rw [← I2 i le_rfl]; exact hget
    have hiLen : i < ds.length := by
      have := (List.get?_eq_some.mp hPi).1
      rwa [pass1Go_length] at this
    rcases List.get?_eq_get hiLen with hgetd
    have hP := p1get words ds 0 i (ds.get ⟨i, hiLen⟩) hgetd
    rw [hPi] at hP
    have hri_eq : ri = (p1both words (p1cursor words 0 ds i) (ds.get ⟨i, hiLen⟩)).1 :=
      Option.some.inj hP
    have htext : ri.text = (ds.get ⟨i, hiLen⟩).text := by
      rw [hri_eq]
      exact (p1both_text words _ _).1
    have hnlen : (normalize_text (ds.get ⟨i, hiLen⟩).text).length ≠ 0 := by
      rw [← htext]
      simpa using fun h => hn (List.length_eq_zero.mp h)
    -- The committed line cannot have a matched `P`-line after it.
    have hnoafter : ¬∃ m, i < m ∧ matchedAtP (pass1Go words 0 ds) m := by
      rintro ⟨m0, him0, hm0⟩
      -- The searched range is contained in the pass-1 window at line i,
      -- so its best score is below the threshold: contradiction with hsc.
      have hprevR : prevWordEnd R i = prevWordEnd (pass1Go words 0 ds) i := by
        apply prevWordEnd_congr
        intro j hj
        exact I3 j hj (Or.inr ⟨m0, by omega, hm0⟩)
      have hprevP : prevWordEnd (pass1Go words 0 ds) i = p1cursor words 0 ds i :=
        prevWordEnd_pass1 words ds i (by omega)
      have hnextR : nextWordStart R words.length i =
          nextWordStart (pass1Go words 0 ds) words.length i := by
        apply nextWordStart_congr
        intro j hj
        exact I2 j (by omega)
      rcases nextWordStart_spec (pass1Go words 0 ds) words.length i with
        ⟨hall, hns⟩ | ⟨m, rm, him, hgetm, hmm, hbetween, hns⟩
      · obtain ⟨r0, hget0, hm0'⟩ := hm0
        have := hall m0 r0 him0 hget0
        rw [hm0'] at this
        cases this
      · -- `m` is the nearest matched `P`-line after `i`
        have hmLen : m < ds.length := by
          have := (List.get?_eq_some.mp hgetm).1
          rwa [pass1Go_length] at this
        rcases List.get?_eq_get hmLen with hgetdm
        have hPm := p1get words ds 0 m (ds.get ⟨m, hmLen⟩) hgetdm
        rw [hgetm] at hPm
        have hrm_eq : rm = (p1both words (p1cursor words 0 ds m) (ds.get ⟨m, hmLen⟩)).1 :=
          Option.some.inj hPm
        have hfm := pass1_matched_fact words ds m (ds.get ⟨m, hmLen⟩) hgetdm
          (by rw [← hrm_eq]; exact hmm)
        -- the pass-1 cursor is constant across the unmatched stretch [i, m)
        have hconst : p1cursor words 0 ds m = p1cursor words 0 ds i := by
          have := p1cursor_const words ds (m - i) i (by omega) ?_
          · rw [show i + (m - i) = m by omega] at this
            exact this
          · intro j h1 h2
            have hjLen : j < ds.length := by omega
            rcases List.get?_eq_get hjLen with hgetdj
            refine ⟨ds.get ⟨j, hjLen⟩, hgetdj, ?_⟩
            by_cases hji : j = i
            · subst hji
              rw [← hri_eq]
              exact hri
            · have hPj := p1get words ds 0 j (ds.get ⟨j, hjLen⟩) hgetdj
              have := hbetween j ((p1both words (p1cursor words 0 ds j)
                (ds.get ⟨j, hjLen⟩)).1) (by omega) (by omega) hPj
              exact this
        -- the searched range sits inside the pass-1 window
        have hb1 := pass1_unmatched_fact words ds i (ds.get ⟨i, hiLen⟩)
          (by rw [← hri_eq]; exact hri) hnlen
        have href : normalize_text ri.text = normalize_text (ds.get ⟨i, hiLen⟩).text := by
          rw [htext]
        have hle : (best_match_in_range (normalize_text ri.text) words
            (prevWordEnd R i) (nextWordStart R words.length i)).1 ≤
            (best_match_in_range (normalize_text (ds.get ⟨i, hiLen⟩).text) words
              (p1cursor words 0 ds i)
              (min (p1cursor words 0 ds i + SEARCH_WINDOW) words.length)).1 := by
          rw [href, hprevR, hprevP, hnextR, hns]
          apply best_match_le_of_subset
          intro j hj1 hj2 hj3
          have hstart : rm.word_start_idx.toNat =
              (best_match_in_range (normalize_text (ds.get ⟨m, hmLen⟩).text) words
                (p1cursor words 0 ds m)
                (min (p1cursor words 0 ds m + SEARCH_WINDOW) words.length)).2 := by
            rw [hrm_eq, hfm.2.1]
            omega
          have hwin := hfm.2.2.2.2.2.1
          rw [hconst] at hstart hwin
          rw [hstart] at hj2
          constructor
          · exact hj1
          · omega
        have := lt_of_le_of_lt hle hb1
        exact absurd hsc (not_le.mpr this)
    -- Establish the invariant for the updated list.
    rw [hstep]
    have hiR : i < R.length := (List.get?_eq_some.mp hget).1
    refine ⟨?_, ?_, ?_, ?_⟩
    · intro k hk
      rw [List.get?_set_ne _ _ (by omega)]
      exact I2 k (by omega)
    · intro k hk hcond
      by_cases hki : k < i
      · rw [List.get?_set_ne _ _ (by omega)]
        exact I3 k hki hcond
      · have hkeq : k = i := by omega
        subst hkeq
        exfalso
        rcases hcond with ⟨r0, hget0, hm0⟩ | ⟨m, hkm, hm0⟩
        · rw [hPi] at hget0
          cases hget0
          rw [hm0] at hri
          cases hri
        · exact hnoafter ⟨m, hkm, hm0⟩
    · intro k r hgetk hm
      by_cases hki : k = i
      · rw [hki] at hgetk
        rw [List.get?_set_eq_of_lt _ hiR] at hgetk
        cases hgetk
        refine ⟨(best_match_in_range (normalize_text ri.text) words (prevWordEnd R i)
            (nextWordStart R words.length i)).2,
          (best_match_in_range (normalize_text ri.text) words (prevWordEnd R i)
            (nextWordStart R words.length i)).2 + (normalize_text ri.text).length - 1,
          rfl, rfl, ?_, ?_, rfl, rfl⟩
        · have : (normalize_text ri.text).length ≠ 0 := by
            simpa using fun h => hn (List.length_eq_zero.mp h)
          omega
        · have : (normalize_text ri.text).length ≠ 0 := by
            simpa using fun h => hn (List.length_eq_zero.mp h)
          omega
      · rw [List.get?_set_ne _ _ (by omega)] at hgetk
        exact I5 k r hgetk hm
    · intro k1 k2 r1 r2 h12 hget1 hget2 hm1 hm2
      by_cases hk2i : k2 = i
      · rw [hk2i] at hget2 h12
        rw [List.get?_set_eq_of_lt _ hiR] at hget2
        cases hget2
        rw [List.get?_set_ne _ _ (by omega)] at hget1
        -- r1 is a matched line before i: its span ends before prevWordEnd R i
        rcases prevWordEnd_spec R i with ⟨hall, hp0⟩ | ⟨k0, r0, hk0, hget0, hm0, hbet, hpeq⟩
        · have := hall k1 r1 h12 hget1
          rw [hm1] at this
          cases this
        · obtain ⟨s0, e0, hs0, he0, hse0, heL0, _, _⟩ := I5 k0 r0 hget0 hm0
          have hp : prevWordEnd R i = e0 + 1 := by
            rw [hpeq, he0]
            omega
          have hbge : prevWordEnd R i ≤ (best_match_in_range (normalize_text ri.text)
              words (prevWordEnd R i) (nextWordStart R words.length i)).2 :=
            best_match_start_ge _ _ _ _
          have hr1end : r1.word_end_idx ≤ (e0 : Int) := by
            by_cases hk10 : k1 = k0
            · subst hk10
              rw [hget1] at hget0
              cases hget0
              rw [he0]
            · by_cases hlt : k1 < k0
              · have := I6 k1 k0 r1 r0 hlt hget1 hget0 hm1 hm0
                rw [hs0] at this
                omega
              · exfalso
                have := hbet k1 r1 (by omega) h12 hget1
                rw [hm1] at this
                cases this
          simp only
          omega
      · by_cases hk1i : k1 = i
        · rw [hk1i] at hget1 h12
          exfalso
          rw [List.get?_set_ne _ _ (by omega)] at hget2
          have := I2 k2 (by omega)
          rw [this] at hget2
          exact hnoafter ⟨k2, by omega, r2, hget2, hm2⟩
        · rw [List.get?_set_ne _ _ (by omega)] at hget1
          rw [List.get?_set_ne _ _ (by omega)] at hget2
          exact I6 k1 k2 r1 r2 h12 hget1 hget2 hm1 hm2

end AlignWhisper

namespace AlignWhisper

theorem invC2_fold (words : List Word) (ds : List DialogueSeg) :
    ∀ n : ℕ, InvC2 words (pass1Go words 0 ds) n
      ((List.range n).foldl (pass2Step words) (pass1Go words 0 ds)) := by
  intro n
  induction n with
  | zero =>
    simp only [List.range_zero, List.foldl_nil]
    exact invC2_base words ds
  | succ n ih =>
    rw [List.range_succ, List.foldl_append, List.foldl_cons, List.foldl_nil]
    exact invC2_step words ds n _ ih

/-- The full pass-2 loop preserves the invariant to the end of the list. -/
theorem pass2_invariant (words : List Word) (ds : List DialogueSeg) :
    InvC2 words (pass1Go words 0 ds) (pass1Go words 0 ds).length
      (pass2 words (pass1Go words 0 ds)) := by
  unfold pass2
  exact invC2_fold words ds (pass1Go words 0 ds).length

end AlignWhisper

namespace AlignWhisper

/-- C2: after `align` (pass 1 followed by pass 2; the interpolation pass
does not touch matched lines or token spans), any two matched output lines
i < j have strictly increasing, non-overlapping token spans:
word_end_idx(i) < word_start_idx(j). In particular no token index is claimed
by two lines and matched spans preserve line order. -/
theorem claim_C2 (dialogue : List DialogueSeg) (words : List Word)
    (i j : ℕ) (ri rj : AlignedSegment) (hij : i < j)
    (hi : (align dialogue words).get? i = some ri)
    (hj : (align dialogue words).get? j = some rj)
    (hmi : ri.matched = true) (hmj : rj.matched = true) :
    ri.word_end_idx < rj.word_start_idx := by
  have hmono := (pass2_invariant words dialogue).2.2.2
  rcases interpGo_pres (pass2 words (pass1Go words 0 dialogue)).length 0
      (pass2 words (pass1Go words 0 dialogue)) i with ⟨hnone, _⟩ | hsome_i
  · rw [align, interpolate_unmatched] at hi
    rw [hi] at hnone
    cases hnone
  · rcases interpGo_pres (pass2 words (pass1Go words 0 dialogue)).length 0
        (pass2 words (pass1Go words 0 dialogue)) j with ⟨hnone, _⟩ | hsome_j
    · rw [align, interpolate_unmatched] at hj
      rw [hj] at hnone
      cases hnone
    · obtain ⟨ai, bi, hai, hbi, _, _, _, hmi', _, hsi, hei, _⟩ := hsome_i
      obtain ⟨aj, bj, haj, hbj, _, _, _, hmj', _, hsj, hej, _⟩ := hsome_j
      rw [align, interpolate_unmatched] at hi hj
      rw [hi] at hbi
      rw [hj] at hbj
      cases hbi
      cases hbj
      rw [hei, hsj]
      exact hmono i j ai aj hij hai haj (by rw [← hmi']; exact hmi)
        (by rw [← hmj']; exact hmj)

def C2dialogue : List DialogueSeg :=
  [⟨"hello there", "", "", 0, 0⟩, ⟨"how are you", "", "", 0, 0⟩]

def C2words : List Word :=
  [⟨"hello", "hello", 0, 1⟩, ⟨"there", "there", 1, 2⟩,
   ⟨"how", "how", 2, 3⟩, ⟨"are", "are", 3, 4⟩, ⟨"you", "you", 4, 5⟩]

set_option maxRecDepth 400000 in
theorem claim_C2_witness :
    ∃ r0 r1, (align C2dialogue C2words).get? 0 = some r0 ∧
      (align C2dialogue C2words).get? 1 = some r1 ∧
      r0.matched = true ∧ r1.matched = true ∧
      r0.word_end_idx < r1.word_start_idx := by
  have h0 : (align C2dialogue C2words).get? 0 =
      some ⟨"hello there", "", "", 0, 2, true, 1, 0, 1⟩ := by
    with_unfolding_all rfl
  have h1 : (align C2dialogue C2words).get? 1 =
      some ⟨"how are you", "", "", 2, 5, true, 1, 2, 4⟩ := by
    with_unfolding_all rfl
  exact ⟨_, _, h0, h1, rfl, rfl,
    claim_C2 C2dialogue C2words 0 1 _ _ (by omega) h0 h1 rfl rfl⟩

end AlignWhisper

namespace AlignWhisper

theorem dropWhile_head_not {α : Type} (p : α → Bool) :
    ∀ (l : List α) (x : α), (l.dropWhile p).head? = some x → p x = false := by
  intro l
  induction l with
  | nil => intro x h; cases h
  | cons a t ih =>
    intro x h
    rw [List.dropWhile_cons] at h
    by_cases hp : p a = true
    · rw [if_pos hp] at h
      exact ih x h
    · rw [if_neg hp] at h
      cases h
      simpa using hp

/-- Adjacency inside one interpolated run glued to its tail: consecutive
sub-intervals abut exactly, the last one ends at `tA`, which is where the
tail starts. -/
theorem assignRun_append_adjacent (t tA : ℚ) (run out' : List AlignedSegment)
    (hne : run ≠ [])
    (hstart : ∀ b, out'.head? = some b → b.start = tA)
    (hAdj : ∀ k a b, out'.get? k = some a → out'.get? (k + 1) = some b →
      (a.matched = true ∧ b.matched = true) ∨ a.stop = b.start) :
    ∀ k a b,
      (assignRun t ((tA - t) / (run.length : ℚ)) 0 run ++ out').get? k = some a →
      (assignRun t ((tA - t) / (run.length : ℚ)) 0 run ++ out').get? (k + 1) = some b →
      (a.matched = true ∧ b.matched = true) ∨ a.stop = b.start := by
  intro k a b ha hb
  have hlen1 : 1 ≤ run.length := by
    cases run with
    | nil => exact absurd rfl hne
    | cons x xs => simp
  have hlenA : (assignRun t ((tA - t) / (run.length : ℚ)) 0 run).length = run.length :=
    assignRun_length _ _ 0 run
  have hne0 : ((run.length : ℚ)) ≠ 0 := by
    have : (0 : ℚ) < (run.length : ℚ) := by exact_mod_cast hlen1
    exact ne_of_gt this
  by_cases hk1 : k + 1 < run.length
  · -- both inside the run
    rw [List.get?_append (by omega : k < (assignRun t ((tA - t) / (run.length : ℚ)) 0 run).length),
      assignRun_get?] at ha
    rw [List.get?_append (by omega : k + 1 < (assignRun t ((tA - t) / (run.length : ℚ)) 0 run).length),
      assignRun_get?] at hb
    cases hrk : run.get? k with
    | none => rw [hrk] at ha; cases ha
    | some sk =>
      cases hrk1 : run.get? (k + 1) with
      | none => rw [hrk1] at hb; cases hb
      | some sk1 =>
        rw [hrk] at ha
        rw [hrk1] at hb
        simp only [Option.map_some'] at ha hb
        cases ha
        cases hb
        right
        simp only [Nat.zero_add]
        push_cast
        ring
  · by_cases hk : k < run.length
    · -- boundary: last of the run against the head of the tail
      have hkeq : k + 1 = run.length := by omega
      rw [List.get?_append (by omega : k < (assignRun t ((tA - t) / (run.length : ℚ)) 0 run).length),
        assignRun_get?] at ha
      rw [List.get?_append_right (by omega), hlenA] at hb
      rw [show k + 1 - run.length = 0 by omega, List.get?_zero] at hb
      cases hrk : run.get? k with
      | none => rw [hrk] at ha; cases ha
      | some sk =>
        rw [hrk] at ha
        simp only [Option.map_some'] at ha
        cases ha
        right
        rw [hstart b hb]
        simp only [Nat.zero_add]
        have hcast : ((k : ℚ) + 1) = (run.length : ℚ) := by
          exact_mod_cast congrArg (Nat.cast : ℕ → ℚ) hkeq
        rw [hcast]
        have : (run.length : ℚ) * ((tA - t) / (run.length : ℚ)) = tA - t := by
          rw [mul_div_assoc']
          exact mul_div_cancel_left₀ _ hne0
        linarith [this]
    · -- both inside the tail
      rw [List.get?_append_right (by omega), hlenA] at ha
      rw [List.get?_append_right (by omega), hlenA] at hb
      rw [show k + 1 - run.length = (k - run.length) + 1 by omega] at hb
      exact hAdj (k - run.length) a b ha hb

/-- Adjacency property of the interpolation pass: every two consecutive
output lines are either both matched (hence untouched pass-2 lines) or abut
exactly (`a.end = b.start`); moreover an unmatched first line starts at the
threaded `t_before`. -/
theorem interpGo_adjacent :
    ∀ (fuel : ℕ) (l : List AlignedSegment) (t : ℚ), l.length ≤ fuel →
      (∀ k a b, (interpGo fuel t l).get? k = some a →
          (interpGo fuel t l).get? (k + 1) = some b →
          (a.matched = true ∧ b.matched = true) ∨ a.stop = b.start) ∧
      (∀ a, (interpGo fuel t l).head? = some a →
          a.matched = true ∨ a.start = t) := by
  intro fuel
  induction fuel with
  | zero =>
    intro l t hl
    have : l = [] := List.length_eq_zero.mp (Nat.le_zero.mp hl)
    subst this
    exact ⟨fun k a b ha _ => (nomatch ha), fun a ha => (nomatch ha)⟩
  | succ fuel ih =>
    intro l t hl
    match l with
    | [] =>
      exact ⟨fun k a b ha _ => (nomatch ha), fun a ha => (nomatch ha)⟩
    | r :: rs =>
      by_cases hm : r.matched = true
      · have hout : interpGo (fuel + 1) t (r :: rs) = r :: interpGo fuel r.stop rs := by
          rw [interpGo, if_pos hm]
        have hrs : rs.length ≤ fuel := by
          simp only [List.length_cons] at hl
          omega
        obtain ⟨ihAdj, ihHead⟩ := ih rs r.stop hrs
        rw [hout]
        constructor
        · intro k a b ha hb
          match k with
          | 0 =>
            rw [List.get?_cons_zero] at ha
            cases ha
            rw [List.get?_cons_succ, List.get?_zero] at hb
            rcases ihHead b hb with hbm | hbs
            · exact Or.inl ⟨hm, hbm⟩
            · exact Or.inr hbs.symm
          | k + 1 =>
            rw [List.get?_cons_succ] at ha hb
            exact ihAdj k a b ha hb
        · intro a ha
          rw [List.head?_cons] at ha
          cases ha
          exact Or.inl hm
      · have hm' : r.matched = false := by simpa using hm
        have hrunUn : ∀ x ∈ r :: rs.takeWhile (fun s => !s.matched), x.matched = false := by
          intro x hx
          rcases List.mem_cons.mp hx with h | h
          · rw [h]; exact hm'
          · simpa using List.mem_takeWhile_imp h
        have hpostHead : ∀ s, (rs.dropWhile (fun s => !s.matched)).head? = some s →
            s.matched = true := by
          intro s hs
          simpa using dropWhile_head_not (fun s => !s.matched) rs s hs
        have hsplit : (r :: rs.takeWhile (fun s => !s.matched)) ++
            rs.dropWhile (fun s => !s.matched) = r :: rs := by
          rw [List.cons_append, List.takeWhile_append_dropWhile]
        have hout : interpGo (fuel + 1) t (r :: rs) =
            assignRun t ((tAfterOf (r :: rs.takeWhile (fun s => !s.matched))
                (rs.dropWhile (fun s => !s.matched)) - t) /
                (((r :: rs.takeWhile (fun s => !s.matched)).length : ℕ) : ℚ)) 0
              (r :: rs.takeWhile (fun s => !s.matched)) ++
              interpGo fuel (tAfterOf (r :: rs.takeWhile (fun s => !s.matched))
                (rs.dropWhile (fun s => !s.matched)))
                (rs.dropWhile (fun s => !s.matched)) := by
          conv_lhs => rw [← hsplit]
          exact interpGo_run fuel t _ _ (by simp) hrunUn hpostHead
        have hpostLen : (rs.dropWhile (fun s => !s.matched)).length ≤ fuel := by
          have hsplit' := List.takeWhile_append_dropWhile (fun s => !s.matched) rs
          have h1 : (rs.takeWhile (fun s => !s.matched)).length +
              (rs.dropWhile (fun s => !s.matched)).length = rs.length := by
            conv_rhs => rw [← hsplit']
            rw [List.length_append]
          simp only [List.length_cons] at hl
          omega
        obtain ⟨ihAdj, _⟩ := ih (rs.dropWhile (fun s => !s.matched))
          (tAfterOf (r :: rs.takeWhile (fun s => !s.matched))
            (rs.dropWhile (fun s => !s.matched))) hpostLen
        have hstart : ∀ b, (interpGo fuel (tAfterOf (r :: rs.takeWhile (fun s => !s.matched))
            (rs.dropWhile (fun s => !s.matched)))
            (rs.dropWhile (fun s => !s.matched))).head? = some b →
            b.start = tAfterOf (r :: rs.takeWhile (fun s => !s.matched))
              (rs.dropWhile (fun s => !s.matched)) := by
          intro b hbh
          rw [← List.get?_zero] at hbh
          rcases interpGo_pres fuel (tAfterOf (r :: rs.takeWhile (fun s => !s.matched))
              (rs.dropWhile (fun s => !s.matched))) (rs.dropWhile (fun s => !s.matched)) 0 with
            ⟨hnone, _⟩ | ⟨a0, b0, ha0, hb0, _, _, _, _, _, _, _, hmeq⟩
          · rw [hbh] at hnone
            cases hnone
          · rw [hbh] at hb0
            cases hb0
            have ha0m : a0.matched = true := by
              rw [List.get?_zero] at ha0
              exact hpostHead a0 ha0
            rw [hmeq ha0m]
            rw [List.get?_zero] at ha0
            unfold tAfterOf
            rw [ha0]
          done
        rw [hout]
        constructor
        · exact assignRun_append_adjacent t _ _ _ (by simp) hstart ihAdj
        · intro a ha
          rw [← List.get?_zero, List.get?_append (by
              rw [assignRun_length]; simp), assignRun_get?, List.get?_cons_zero] at ha
          simp only [Option.map_some'] at ha
          cases ha
          right
          simp

end AlignWhisper

namespace AlignWhisper

/-- Final value of line `k` after `fix_overlaps`: clamped iff it and its
successor are both matched and overlap; starts are never modified. -/
def fixRule (O : List AlignedSegment) (k : ℕ) : Option AlignedSegment :=
  match O.get? k, O.get? (k + 1) with
  | some a, some b =>
    some (if a.matched ∧ b.matched ∧ b.start < a.stop
      then { a with stop := max a.start (b.start - 5 / 100) } else a)
  | some a, none => some a
  | none, _ => none

theorem fixStep_length (segments : List AlignedSegment) (i : ℕ) :
    (fixStep segments i).length = segments.length := by
  unfold fixStep
  cases ha : segments.get? i with
  | none => rfl
  | some a =>
    cases hb : segments.get? (i + 1) with
    | none => rfl
    | some b =>
      dsimp only
      split
      · exact List.length_set segments i _
      · rfl

theorem fixFold_length (O : List AlignedSegment) :
    ∀ m : ℕ, ((List.range m).foldl fixStep O).length = O.length := by
  intro m
  induction m with
  | zero => rfl
  | succ m ih =>
    rw [List.range_succ, List.foldl_append, List.foldl_cons, List.foldl_nil,
      fixStep_length, ih]

theorem fixFold_get? (O : List AlignedSegment) :
    ∀ m : ℕ, m + 1 ≤ O.length →
      (∀ k, m ≤ k → ((List.range m).foldl fixStep O).get? k = O.get? k) ∧
      (∀ k, k < m → ((List.range m).foldl fixStep O).get? k = fixRule O k) := by
  intro m
  induction m with
  | zero =>
    intro _
    exact ⟨fun k _ => rfl, fun k hk => absurd hk (by omega)⟩
  | succ m ih =>
    intro hm
    obtain ⟨ih1, ih2⟩ := ih (by omega)
    rw [List.range_succ, List.foldl_append, List.foldl_cons, List.foldl_nil]
    obtain ⟨a, ha⟩ : ∃ a, O.get? m = some a :=
      ⟨O.get ⟨m, by omega⟩, List.get?_eq_get (by omega)⟩
    obtain ⟨b, hb⟩ : ∃ b, O.get? (m + 1) = some b :=
      ⟨O.get ⟨m + 1, by omega⟩, List.get?_eq_get (by omega)⟩
    have hFa : ((List.range m).foldl fixStep O).get? m = some a := by
      rw [ih1 m le_rfl]; exact ha
    have hFb : ((List.range m).foldl fixStep O).get? (m + 1) = some b := by
      rw [ih1 (m + 1) (by omega)]; exact hb
    have hmlen : m < ((List.range m).foldl fixStep O).length := by
      rw [fixFold_length]; omega
    simp only [fixStep]
    rw [hFa, hFb]
    dsimp only
    by_cases hcond : a.matched = true ∧ b.matched = true ∧ b.start < a.stop
    · rw [if_pos hcond]
      refine ⟨?_, ?_⟩
      · intro k hk
        rw [List.get?_set_ne _ _ (by omega)]
        exact ih1 k (by omega)
      · intro k hk
        by_cases hkm : k = m
        · rw [hkm, List.get?_set_eq_of_lt _ hmlen]
          unfold fixRule
          rw [ha, hb]
          dsimp only
          rw [if_pos hcond]
        · rw [List.get?_set_ne _ _ (by omega)]
          exact ih2 k (by omega)
    · rw [if_neg hcond]
      refine ⟨fun k hk => ih1 k (by omega), ?_⟩
      intro k hk
      by_cases hkm : k = m
      · rw [hkm, ih1 m le_rfl, ha]
        unfold fixRule
        rw [ha, hb]
        dsimp only
        rw [if_neg hcond]
      · exact ih2 k (by omega)

/-- Pointwise description of the whole `fix_overlaps` loop. -/
theorem fix_overlaps_get? (O : List AlignedSegment) (k : ℕ) :
    (fix_overlaps O).get? k = fixRule O k := by
  unfold fix_overlaps
  by_cases hlen : O.length = 0
  · have : O = [] := List.length_eq_zero.mp hlen
    subst this
    simp only [List.length_nil]
    rfl
  · obtain ⟨h1, h2⟩ := fixFold_get? O (O.length - 1) (by omega)
    by_cases hk : k < O.length - 1
    · exact h2 k hk
    · rw [h1 k (by omega)]
      unfold fixRule
      cases ha : O.get? k with
      | none => rfl
      | some a =>
        have hklen : k < O.length := (List.get?_eq_some.mp ha).1
        have : k = O.length - 1 := by omega
        have hnone : O.get? (k + 1) = none := by
          rw [List.get?_eq_none]
          omega
        rw [hnone]

end AlignWhisper

namespace AlignWhisper

/-- A matched line of the `align` output carries a well-formed committed
token span whose times are those of its end tokens. -/
theorem align_matched_entry (dialogue : List DialogueSeg) (words : List Word)
    (k : ℕ) (r : AlignedSegment)
    (h : (align dialogue words).get? k = some r) (hm : r.matched = true) :
    spanWf words r := by
  rcases interpGo_pres (pass2 words (pass1Go words 0 dialogue)).length 0
      (pass2 words (pass1Go words 0 dialogue)) k with
    ⟨hnone, _⟩ | ⟨a, b, ha, hb, _, _, _, hmeq, _, _, _, hfix⟩
  · rw [align, interpolate_unmatched] at h
    rw [h] at hnone
    cases hnone
  · rw [align, interpolate_unmatched] at h
    rw [h] at hb
    cases hb
    have ham : a.matched = true := by rw [← hmeq]; exact hm
    rw [hfix ham]
    exact (pass2_invariant words dialogue).2.2.1 k a ha ham

/-- Matched lines of the `align` output have strictly increasing,
non-overlapping token spans. -/
theorem align_spans_mono (dialogue : List DialogueSeg) (words : List Word)
    (i j : ℕ) (ri rj : AlignedSegment) (hij : i < j)
    (hi : (align dialogue words).get? i = some ri)
    (hj : (align dialogue words).get? j = some rj)
    (hmi : ri.matched = true) (hmj : rj.matched = true) :
    ri.word_end_idx < rj.word_start_idx := by
  have hmono := (pass2_invariant words dialogue).2.2.2
  rcases interpGo_pres (pass2 words (pass1Go words 0 dialogue)).length 0
      (pass2 words (pass1Go words 0 dialogue)) i with ⟨hnone, _⟩ | hsome_i
  · rw [align, interpolate_unmatched] at hi
    rw [hi] at hnone
    cases hnone
  · rcases interpGo_pres (pass2 words (pass1Go words 0 dialogue)).length 0
        (pass2 words (pass1Go words 0 dialogue)) j with ⟨hnone, _⟩ | hsome_j
    · rw [align, interpolate_unmatched] at hj
      rw [hj] at hnone
      cases hnone
    · obtain ⟨ai, bi, hai, hbi, _, _, _, hmi', _, hsi, hei, _⟩ := hsome_i
      obtain ⟨aj, bj, haj, hbj, _, _, _, hmj', _, hsj, hej, _⟩ := hsome_j
      rw [align, interpolate_unmatched] at hi hj
      rw [hi] at hbi
      rw [hj] at hbj
      cases hbi
      cases hbj
      rw [hei, hsj]
      exact hmono i j ai aj hij hai haj (by rw [← hmi']; exact hmi)
        (by rw [← hmj']; exact hmj)

/-- Two adjacent lines of the `align` output are either both matched or abut
exactly. -/
theorem align_adjacent (dialogue : List DialogueSeg) (words : List Word)
    (k : ℕ) (a b : AlignedSegment)
    (ha : (align dialogue words).get? k = some a)
    (hb : (align dialogue words).get? (k + 1) = some b) :
    (a.matched = true ∧ b.matched = true) ∨ a.stop = b.start := by
  rw [align, interpolate_unmatched] at ha hb
  exact (interpGo_adjacent (pass2 words (pass1Go words 0 dialogue)).length
    (pass2 words (pass1Go words 0 dialogue)) 0 le_rfl).1 k a b ha hb

def C1cdialogue : List DialogueSeg := [⟨"a", "", "", 0, 0⟩, ⟨"b", "", "", 0, 0⟩]

def C1cwords : List Word := [⟨"a", "a", 4, 5⟩, ⟨"b", "b", 0, 1⟩]

/-- C1 counterexample: with a token stream whose start times are not
monotone (token "a" at [4,5] before token "b" at [0,1] in stream order),
both lines match, and after `fix_overlaps` line 0 still ends at 4 while
line 1 starts at 0: the output is not gap-free monotone. The clamp
`max(start_i, start_j - 0.05)` cannot go below `start_i`, which here
exceeds `start_j`. -/
theorem claim_C1_counterexample :
    ∃ a b, (fix_overlaps (align C1cdialogue C1cwords)).get? 0 = some a ∧
      (fix_overlaps (align C1cdialogue C1cwords)).get? 1 = some b ∧
      ¬(a.stop ≤ b.start) := by
  refine ⟨⟨"a", "", "", 4, 4, true, 1, 0, 0⟩, ⟨"b", "", "", 0, 1, true, 1, 1, 1⟩,
    ?_, ?_, ?_⟩
  · with_unfolding_all rfl
  · with_unfolding_all rfl
  · with_unfolding_all decide

/-- C1 (amended): if the token stream's start times are non-decreasing in
stream order, then after the three passes of `align` and the `fix_overlaps`
post-processing the output is gap-free monotone: every adjacent pair of
output lines satisfies end_time(i) ≤ start_time(i+1), including pairs
involving unmatched lines with interpolated or placeholder timestamps.
Without that monotonicity hypothesis the property fails (see the
counterexample). -/
theorem claim_C1 (dialogue : List DialogueSeg) (words : List Word)
    (hmono : ∀ k2, k2 < words.length → ∀ k1, k1 ≤ k2 →
      (wordAt words k1).start ≤ (wordAt words k2).start)
    (i : ℕ) (a b : AlignedSegment)
    (ha : (fix_overlaps (align dialogue words)).get? i = some a)
    (hb : (fix_overlaps (align dialogue words)).get? (i + 1) = some b) :
    a.stop ≤ b.start := by
  rw [fix_overlaps_get?] at ha hb
  unfold fixRule at ha hb
  cases hOi1 : (align dialogue words).get? (i + 1) with
  | none =>
    rw [hOi1] at hb
    cases hb
  | some b0 =>
    rw [hOi1] at ha hb
    cases hOi : (align dialogue words).get? i with
    | none =>
      rw [hOi] at ha
      cases ha
    | some a0 =>
      rw [hOi] at ha
      dsimp only at ha
      have hbfacts : b.start = b0.start := by
        cases hOi2 : (align dialogue words).get? (i + 1 + 1) with
        | none =>
          rw [hOi2] at hb
          dsimp only at hb
          cases hb
          rfl
        | some c =>
          rw [hOi2] at hb
          dsimp only at hb
          split at hb
          · cases hb
            rfl
          · cases hb
            rfl
      cases ha
      rw [hbfacts]
      by_cases hcond : a0.matched = true ∧ b0.matched = true ∧ b0.start < a0.stop
      · rw [if_pos hcond]
        obtain ⟨ham, hbm, _⟩ := hcond
        obtain ⟨s0, e0, hs0, he0, hse0, heL0, hst0, _⟩ :=
          align_matched_entry dialogue words i a0 hOi ham
        obtain ⟨s1, e1, hs1, he1, hse1, heL1, hst1, _⟩ :=
          align_matched_entry dialogue words (i + 1) b0 hOi1 hbm
        have hspan := align_spans_mono dialogue words i (i + 1) a0 b0 (by omega)
          hOi hOi1 ham hbm
        rw [he0, hs1] at hspan
        have he0s1 : e0 < s1 := by exact_mod_cast hspan
        have hstart_le : a0.start ≤ b0.start := by
          rw [hst0, hst1]
          exact hmono s1 (lt_of_le_of_lt hse1 heL1) s0 (by omega)
        simp only
        apply max_le hstart_le
        linarith
      · rw [if_neg hcond]
        rcases align_adjacent dialogue words i a0 b0 hOi hOi1 with ⟨ham, hbm⟩ | heq
        · by_contra hlt
          exact hcond ⟨ham, hbm, by linarith⟩
        · exact le_of_eq heq

def C1wdialogue : List DialogueSeg :=
  [⟨"hello there", "", "", 0, 0⟩, ⟨"how are you", "", "", 0, 0⟩]

def C1wwords : List Word :=
  [⟨"hello", "hello", 0, 1⟩, ⟨"there", "there", 1, 2⟩,
   ⟨"how", "how", 2, 3⟩, ⟨"are", "are", 3, 4⟩, ⟨"you", "you", 4, 5⟩]

set_option maxRecDepth 400000 in
theorem claim_C1_witness :
    ∃ a b, (fix_overlaps (align C1wdialogue C1wwords)).get? 0 = some a ∧
      (fix_overlaps (align C1wdialogue C1wwords)).get? 1 = some b ∧
      a.stop ≤ b.start := by
  have h0 : (fix_overlaps (align C1wdialogue C1wwords)).get? 0 =
      some ⟨"hello there", "", "", 0, 2, true, 1, 0, 1⟩ := by
    with_unfolding_all rfl
  have h1 : (fix_overlaps (align C1wdialogue C1wwords)).get? 1 =
      some ⟨"how are you", "", "", 2, 5, true, 1, 2, 4⟩ := by
    with_unfolding_all rfl
  exact ⟨_, _, h0, h1,
    claim_C1 C1wdialogue C1wwords (by with_unfolding_all decide) 0 _ _ h0 h1⟩

end AlignWhisper
